import Mathlib

set_option maxHeartbeats 1000000

/-
  Shallow embedding of `assignment1/simple_board.py` (class SimpleGoBoard).

  The board is a one-dimensional padded array of cells; three bookkeeping
  lists (scratch, black stones, white stones) live in `store`.  The color
  constants, `coord_to_point`, `where1d`, `is_black_white`, `opponent`,
  `MAXSIZE` and `PASS` come from the external `board_util` module, which is
  not part of this repository's sources; they are modelled from the spec.

  Out-of-range numpy reads raise in Python; in contexts the claims quantify
  over, every read is in range (the border frame plus the extra bottom rows
  guarantee it), and reads here use `List.getD` with default `BORDER`.
  Out-of-range numpy writes and failing `list.remove` calls raise; fallible
  operations therefore return `Option`, with `none` for a raised exception
  (including failed `assert`s).
-/

namespace SGB

/-- Modelled from the spec: cell value of an empty interior point
(external `board_util` constant). -/
def EMPTY : Nat := 0

/-- Modelled from the spec: the BLACK color constant; it also indexes the
black bookkeeping list (`store[1]`). -/
def BLACK : Nat := 1

/-- Modelled from the spec: the WHITE color constant; it also indexes the
white bookkeeping list (`store[2]`). -/
def WHITE : Nat := 2

/-- Modelled from the spec: sentinel value of the permanent frame cells. -/
def BORDER : Nat := 3

/-- Modelled from the spec: fixed size ceiling of the external utilities. -/
def MAXSIZE : Nat := 25

/-- Modelled from the spec: the BOARD_FULL_NO_WINNER marker returned by
`checkState` for a draw (external `board_util` constant), distinct from
WHITE, BLACK and the ONGOING marker `-1`. -/
def PASS : Int := -2

/-- Modelled from the spec: `is_black_white(color)` from `board_util`. -/
def is_black_white (c : Nat) : Bool := c == BLACK || c == WHITE

/-- Modelled from the spec: `GoBoardUtil.opponent(color)`, swapping BLACK
and WHITE. -/
def opponent (c : Nat) : Nat := WHITE + BLACK - c

/-- Modelled from the spec: `coord_to_point(row, col, boardsize)`; 1-indexed
row and column to a linear index with stride `boardsize + 1`. -/
def coord_to_point (row col size : Nat) : Nat := row * (size + 1) + col

/-- Modelled from the spec: `where1d(mask)`, the ascending list of indices
at which the boolean mask is true. -/
def where1d (mask : List Bool) : List Nat :=
  (List.range mask.length).filter (fun i => mask.getD i false)

/-- The bookkeeping structure `self.store = [[],[],[]]`: scratch list at
index 0, black stones at index 1 (= BLACK), white stones at index 2. -/
structure Store where
  scratch : List Nat
  black : List Nat
  white : List Nat
deriving DecidableEq, Repr

/-- Reading `self.store[c]`. -/
def Store.get (s : Store) (c : Nat) : List Nat :=
  if c = 0 then s.scratch else if c = 1 then s.black else if c = 2 then s.white else []

/-- Writing `self.store[c] = l` (in-place list mutation in Python). -/
def Store.set (s : Store) (c : Nat) (l : List Nat) : Store :=
  if c = 0 then { s with scratch := l }
  else if c = 1 then { s with black := l }
  else if c = 2 then { s with white := l }
  else s

/-- The mutable state of a SimpleGoBoard instance.  `NS` and `maxpoint` are
derived from `size` (the source stores them but asserts in `copy` that they
are determined by `size`). -/
structure Board where
  size : Nat
  board : List Nat
  store : Store
  ko_recapture : Option Nat
  current_player : Nat
deriving DecidableEq, Repr

/-- `self.NS = size + 1`. -/
def Board.NS (b : Board) : Nat := b.size + 1

/-- `self.maxpoint = size * size + 3 * (size + 1)`. -/
def Board.maxpoint (b : Board) : Nat := b.size * b.size + 3 * (b.size + 1)

/-- `get_color(point)`: read `self.board[point]`. -/
def get_color (b : Board) (point : Nat) : Nat := b.board.getD point BORDER

/-- `pt(row, col)`. -/
def pt (b : Board) (row col : Nat) : Nat := coord_to_point row col b.size

/-- `row_start(row) = row * NS + 1`. -/
def row_start (size row : Nat) : Nat := row * (size + 1) + 1

/-- Numpy slice assignment `board[start : start + n] = v` (out-of-range
positions are silently clipped, as numpy clips slices). -/
def setRange (l : List Nat) (start v : Nat) : Nat → List Nat
  | 0 => l
  | n + 1 => setRange (l.set start v) (start + 1) v n

/-- `_initialize_empty_points`: for each row 1..size fill the row with
EMPTY. -/
def _initialize_empty_points (size : Nat) (bd : List Nat) : List Nat :=
  (List.range size).foldl (fun acc r => setRange acc (row_start size (r + 1)) EMPTY size) bd

/-- `reset(size)`: fresh state, all-BORDER array with EMPTY interior rows,
empty bookkeeping lists. -/
def reset (size : Nat) : Board :=
  { size := size
    board := _initialize_empty_points size (List.replicate (size * size + 3 * (size + 1)) BORDER)
    store := ⟨[], [], []⟩
    ko_recapture := none
    current_player := BLACK }

/-- `__init__(size)`: asserts `2 <= size <= MAXSIZE`, then resets. -/
def newBoard (size : Nat) : Option Board :=
  if 2 ≤ size ∧ size ≤ MAXSIZE then some (reset size) else none

/-- `get_empty_points()`: `where1d(board == EMPTY)`. -/
def get_empty_points (b : Board) : List Nat :=
  where1d (b.board.map (fun x => x == EMPTY))

/-- `_neighbors(point)`: the four orthogonal neighbors. -/
def _neighbors (b : Board) (point : Nat) : List Nat :=
  [point - 1, point + 1, point - b.NS, point + b.NS]

/-- `_diag_neighbors(point)`: the four diagonal neighbors. -/
def _diag_neighbors (b : Board) (point : Nat) : List Nat :=
  [point - b.NS - 1, point - b.NS + 1, point + b.NS - 1, point + b.NS + 1]

/-- `neighbors_of_color(point, color)`. -/
def neighbors_of_color (b : Board) (point color : Nat) : List Nat :=
  (_neighbors b point).filter (fun nb => get_color b nb == color)

/-- `_is_surrounded(point, color)`: every orthogonal neighbor is BORDER or
`color`. -/
def _is_surrounded (b : Board) (point color : Nat) : Bool :=
  (_neighbors b point).all (fun nb => get_color b nb == BORDER || get_color b nb == color)

/-- `is_eye(point, color)`: surrounded, and the diagonal scan accumulating
(false_count, at_edge) ends with `false_count <= 1 - at_edge`. -/
def is_eye (b : Board) (point color : Nat) : Bool :=
  if !_is_surrounded b point color then false
  else
    let acc := (_diag_neighbors b point).foldl
      (fun (fa : Nat × Nat) d =>
        if get_color b d == BORDER then (fa.1, 1)
        else if get_color b d == opponent color then (fa.1 + 1, fa.2)
        else fa) (0, 0)
    decide (acc.1 ≤ 1 - acc.2)

/-- `_has_liberty(block)`: some stone of the block has an EMPTY neighbor. -/
def _has_liberty (b : Board) (block : List Bool) : Bool :=
  (where1d block).any (fun stone => !(neighbors_of_color b stone EMPTY).isEmpty)

/-- One iteration body of the flood fill in `_block_of`: for each same-color
neighbor `nb` of the popped point `p`, if `not marker[nb]` then set
`marker[nb] = True` and push `nb`.  The Python stack pushes at the end and
pops at the end; the stack is represented here reversed (head = top), so a
push is a cons.  An out-of-range marker access raises in numpy (`none`). -/
def processPoint (b : Board) (color : Nat) (marker : List Bool) (stack : List Nat)
    (p : Nat) : Option (List Bool × List Nat) :=
  (neighbors_of_color b p color).foldlM
    (fun ms nb =>
      if ms.1.getD nb false then some ms
      else if nb < ms.1.length then some (ms.1.set nb true, nb :: ms.2) else none)
    (marker, stack)

/-- The `while pointstack:` loop of `_block_of`, with fuel (each iteration
strictly decreases `stack.length + marker.count false`, so the fuel used in
`_block_of_trace` always suffices).  The returned trace is the sequence of
popped points, recorded for the no-revisit property. -/
def floodLoop (b : Board) (color : Nat) :
    Nat → List Bool → List Nat → List Nat → Option (List Bool × List Nat)
  | 0, _, _, _ => none
  | fuel + 1, marker, stack, trace =>
    match stack with
    | [] => some (marker, trace)
    | p :: rest =>
      match processPoint b color marker rest p with
      | none => none
      | some (m, st) => floodLoop b color fuel m st (trace ++ [p])

/-- `_block_of(stone)` together with the trace of popped points: a fresh
all-false marker of length `maxpoint`, assert `is_black_white(color)`
(failed assert: `none`), mark and push the seed, run the loop. -/
def _block_of_trace (b : Board) (stone : Nat) : Option (List Bool × List Nat) :=
  let marker := List.replicate b.maxpoint false
  let color := get_color b stone
  if is_black_white color then
    if stone < marker.length then
      floodLoop b color (b.maxpoint + 2) (marker.set stone true) [stone] []
    else none
  else none

/-- `_block_of(stone)`: the boolean marker array of the block. -/
def _block_of (b : Board) (stone : Nat) : Option (List Bool) :=
  (_block_of_trace b stone).map Prod.fst

/-- `_detect_and_process_capture(nb_point)`: if the block of `nb_point` has
no liberty, set every captured position EMPTY and return `nb_point` iff the
capture is a single stone; otherwise no mutation and no capture. -/
def _detect_and_process_capture (b : Board) (nb_point : Nat) : Option (Option Nat × Board) :=
  match _block_of b nb_point with
  | none => none
  | some opp_block =>
    if _has_liberty b opp_block then some (none, b)
    else
      let captures := where1d opp_block
      if captures.all (fun i => i < b.board.length) then
        some (if captures.length = 1 then some nb_point else none,
              { b with board := captures.foldl (fun bd i => bd.set i EMPTY) b.board })
      else none

/-- The common recursion of `checkH` / `checkV` / `checkDR` / `checkDL`:
while `chain > 1`, look at `point + off`; if it holds `color`, append it to
the scratch list `store[0]`, remove it from `store[color]` (Python
`list.remove` raises when absent: `none`) and recurse with `chain - 1`;
otherwise the chain fails.  `chain <= 1` succeeds. -/
def checkChain (bd : List Nat) (off : Nat) (s : Store) (point color : Nat) :
    Nat → Option (Bool × Store)
  | 0 => some (true, s)
  | 1 => some (true, s)
  | chain + 2 =>
    if bd.getD (point + off) BORDER = color then
      if point + off ∈ s.get color then
        checkChain bd off
          ((s.set 0 (s.scratch ++ [point + off])).set color ((s.get color).erase (point + off)))
          (point + off) color (chain + 1)
      else none
    else some (false, s)

/-- `checkH(point, colour, chain)`: horizontal direction, offset `+1`. -/
def checkH (bd : List Nat) (s : Store) (point color chain : Nat) : Option (Bool × Store) :=
  checkChain bd 1 s point color chain

/-- `checkV(point, colour, chain)`: vertical direction, offset `+NS`. -/
def checkV (bd : List Nat) (NS : Nat) (s : Store) (point color chain : Nat) :
    Option (Bool × Store) :=
  checkChain bd NS s point color chain

/-- `checkDR(point, colour, chain)`: diagonal, offset `+NS+1`. -/
def checkDR (bd : List Nat) (NS : Nat) (s : Store) (point color chain : Nat) :
    Option (Bool × Store) :=
  checkChain bd (NS + 1) s point color chain

/-- `checkDL(point, colour, chain)`: diagonal, offset `+NS-1`. -/
def checkDL (bd : List Nat) (NS : Nat) (s : Store) (point color chain : Nat) :
    Option (Bool × Store) :=
  checkChain bd (NS - 1) s point color chain

/-- `checkout(colour)`: append every scratch element to `store[colour]`,
sort that list ascending (Python `list.sort`), and clear the scratch list. -/
def checkout (s : Store) (colour : Nat) : Store :=
  (s.set colour (List.insertionSort (· ≤ ·) (s.get colour ++ s.scratch))).set 0 []

/-- One direction pass of `checkWin`: Python iterates `for i in
store[colour]` by index over the live list, which only ever shrinks during
a pass, so the index semantics is: read element `k`, run the chain, stop on
a win, else continue at `k+1`.  Fuel `length + 1` always suffices. -/
def passLoop (bd : List Nat) (off colour : Nat) :
    Nat → Nat → Store → Option (Bool × Store)
  | 0, _, _ => none
  | fuel + 1, k, s =>
    match (s.get colour).get? k with
    | none => some (false, s)
    | some i =>
      match checkChain bd off s i colour 5 with
      | none => none
      | some (win, s1) => if win then some (true, s1) else passLoop bd off colour fuel (k + 1) s1

/-- A full direction pass: the loop followed by the `checkout` that
`checkWin` performs both on a win (before `break`) and after an exhausted
loop. -/
def runPass (bd : List Nat) (off colour : Nat) (s : Store) : Option (Bool × Store) :=
  (passLoop bd off colour ((s.get colour).length + 1) 0 s).map
    (fun ws => (ws.1, checkout ws.2 colour))

/-- `checkWin(colour)`: four direction passes in order horizontal `+1`,
vertical `+NS`, diagonal `+NS+1`, diagonal `+NS-1`; the first winning pass
ends the check. -/
def checkWin (b : Board) (colour : Nat) : Option (Bool × Board) :=
  match runPass b.board 1 colour b.store with
  | none => none
  | some (w1, s1) =>
    if w1 then some (true, { b with store := s1 })
    else
      match runPass b.board b.NS colour s1 with
      | none => none
      | some (w2, s2) =>
        if w2 then some (true, { b with store := s2 })
        else
          match runPass b.board (b.NS + 1) colour s2 with
          | none => none
          | some (w3, s3) =>
            if w3 then some (true, { b with store := s3 })
            else
              match runPass b.board (b.NS - 1) colour s3 with
              | none => none
              | some (w4, s4) => some (w4, { b with store := s4 })

/-- `checkState()`: WHITE wins, else BLACK wins, else PASS when no empty
point remains, else `-1` (ongoing). -/
def checkState (b : Board) : Option (Int × Board) :=
  match checkWin b WHITE with
  | none => none
  | some (w, b1) =>
    if w then some ((WHITE : Nat), b1)
    else
      match checkWin b1 BLACK with
      | none => none
      | some (wb, b2) =>
        if wb then some ((BLACK : Nat), b2)
        else if (get_empty_points b2).length = 0 then some (PASS, b2)
        else some (-1, b2)

/-- `play_move(point, color)`: reject if someone has already won or no
empty point remains; reject if the target cell is not EMPTY; otherwise set
the cell, append the point to `store[color]` and sort that list.  The
`or` of the guard short-circuits exactly as in Python.  Reading
`board[point]` out of range raises (`none`); the `except ValueError`
branch is unreachable. -/
def play_move (b : Board) (point color : Nat) : Option (Bool × Board) :=
  match checkWin b WHITE with
  | none => none
  | some (w1, b1) =>
    if w1 then some (false, b1)
    else
      match checkWin b1 BLACK with
      | none => none
      | some (w2, b2) =>
        if w2 then some (false, b2)
        else if (get_empty_points b2).length = 0 then some (false, b2)
        else if point < b2.board.length then
          if b2.board.getD point BORDER ≠ EMPTY then some (false, b2)
          else
            some (true,
              { b2 with
                  board := b2.board.set point color,
                  store := b2.store.set color
                    (List.insertionSort (· ≤ ·) (b2.store.get color ++ [point])) })
        else none

/-- `copy()`: a new instance with the same scalar fields and a `np.copy` of
the cell array.  `b.setStore(self.store)` passes the very same list
objects, so the copy's `store` aliases the original's; in this pure model
the aliasing is accounted for in `is_legal`, the only caller of `copy`. -/
def copy (b : Board) : Board :=
  { size := b.size
    board := b.board
    store := b.store
    ko_recapture := b.ko_recapture
    current_player := b.current_player }

/-- `is_legal(point, color)`: simulate `play_move` on `copy()`.  The copied
cell array is independent, so the original's cells are untouched, but the
store lists are shared with the copy (see `copy`), so every store mutation
the simulated move performs lands on the original board as well. -/
def is_legal (b : Board) (point color : Nat) : Option (Bool × Board) :=
  match play_move (copy b) point color with
  | none => none
  | some (legal, bc) => some (legal, { b with store := bc.store })

/-- Specification side: linear index `i` is an interior cell of a board of
the given size: row `i / (size+1)` and column `i % (size+1)` both between
1 and `size`. -/
def isInterior (size i : Nat) : Prop :=
  1 ≤ i / (size + 1) ∧ i / (size + 1) ≤ size ∧ 1 ≤ i % (size + 1) ∧ i % (size + 1) ≤ size

instance (size i : Nat) : Decidable (isInterior size i) := by
  unfold isInterior; infer_instance

/-- Specification side: five consecutive cells of color `c` along the
direction of offset `off`, starting at `x`. -/
def run5 (bd : List Nat) (off c x : Nat) : Prop :=
  ∀ k < 5, bd.getD (x + k * off) BORDER = c

instance (bd : List Nat) (off c x : Nat) : Decidable (run5 bd off c x) := by
  unfold run5; infer_instance

/-- Specification side: somewhere on the board five consecutive cells hold
color `c` along the direction of offset `off`. -/
def hasRun5 (bd : List Nat) (off c : Nat) : Prop :=
  ∃ x, run5 bd off c x

/-- Specification side: the color index list `l` agrees with the cells,
containing exactly the indices whose cell is `c`. -/
def StoreAgrees (bd l : List Nat) (c : Nat) : Prop :=
  (∀ x ∈ l, bd.getD x BORDER = c) ∧ ∀ x < bd.length, bd.getD x BORDER = c → x ∈ l

instance (bd l : List Nat) (c : Nat) : Decidable (StoreAgrees bd l c) := by
  unfold StoreAgrees; infer_instance

/-- Specification side: the data-model invariants of a reachable board
state: valid size, array of length `maxpoint`, permanent BORDER frame
outside the interior, empty scratch list, sorted duplicate-free color
index lists agreeing with the cells. -/
def WellFormed (b : Board) : Prop :=
  2 ≤ b.size ∧
  b.board.length = b.maxpoint ∧
  (∀ i < b.board.length, ¬isInterior b.size i → b.board.getD i BORDER = BORDER) ∧
  b.store.scratch = [] ∧
  List.Sorted (· < ·) b.store.black ∧
  List.Sorted (· < ·) b.store.white ∧
  StoreAgrees b.board b.store.black BLACK ∧
  StoreAgrees b.board b.store.white WHITE

instance (b : Board) : Decidable (WellFormed b) := by
  unfold WellFormed; infer_instance

/-- Specification side: one orthogonal step from `p` to a cell `q` holding
color `c`. -/
def sameColorStep (b : Board) (c p q : Nat) : Prop :=
  q ∈ neighbors_of_color b p c

/-- Specification side: `q` is reachable from `seed` through orthogonal
steps over cells of color `c`. -/
def Reach (b : Board) (c seed q : Nat) : Prop :=
  Relation.ReflTransGen (sameColorStep b c) seed q

/-- Place the given black and white stones on the cells of a fresh board of
the given size; used only to build concrete witness inputs. -/
def withStones (size : Nat) (blacks whites : List Nat) : Board :=
  { reset size with
      board := whites.foldl (fun bd p => bd.set p WHITE)
        (blacks.foldl (fun bd p => bd.set p BLACK) (reset size).board),
      store := ⟨[], blacks, whites⟩ }

/-- Concrete size-3 board (NS = 4, interior rows 5-7, 9-11, 13-15) with a
black group at 5 and 6 that keeps a liberty at 7; used as witness input. -/
def wbLib : Board := withStones 3 [5, 6] [9, 10]

/-- Concrete size-3 board with a single black stone at the corner 5
enclosed by white at 6 and 9; used as witness input. -/
def wbCap1 : Board := withStones 3 [5] [6, 9]

/-- Concrete size-3 board with a liberty-less black group of two stones at
5 and 6; used as counterexample input. -/
def wbCap2 : Board := withStones 3 [5, 6] [7, 9, 10]

/-- Concrete size-3 board with a liberty-less black group of three stones
at 5, 6 and 7; used as counterexample input. -/
def wbCap3 : Board := withStones 3 [5, 6, 7] [9, 10, 11]

/-- Concrete size-7 board (NS = 8, maxpoint 73) with a horizontal run of
five black stones at 9-13 in the first row; used as witness input. -/
def wbWin5 : Board := withStones 7 [9, 10, 11, 12, 13] []

/-- Concrete size-7 board with a maximal horizontal run of four black
stones at 9-12; used as witness input. -/
def wbRun4 : Board := withStones 7 [9, 10, 11, 12] []

/-- Proof infrastructure: the points a chain from `v` with offset `off` has
consumed after `m` successful steps: `[v + 1*off, ..., v + m*off]`. -/
def chainSeg (v off m : Nat) : List Nat :=
  (List.range m).map (fun i => v + (i + 1) * off)

/-! ### Theorems -/

theorem is_black_white_false {v : Nat} (h : v = EMPTY ∨ v = BORDER) :
    is_black_white v = false := by
  rcases h with h | h <;> subst h <;> decide

/-- Claim C10: for every point whose cell is EMPTY or BORDER, `_block_of`
fails its `is_black_white` assertion instead of returning a result, and so
does `_detect_and_process_capture`; capture resolution is only defined on a
point occupied by BLACK or WHITE. -/
theorem C10_block_of_requires_stone (b : Board) (p : Nat)
    (h : get_color b p = EMPTY ∨ get_color b p = BORDER) :
    _block_of b p = none ∧ _detect_and_process_capture b p = none := by
  have hbw := is_black_white_false h
  refine ⟨?_, ?_⟩
  · simp [_block_of, _block_of_trace, hbw]
  · simp [_detect_and_process_capture, _block_of, _block_of_trace, hbw]

/-- Witness for C10 at the empty size-2 board and the EMPTY interior point 4. -/
theorem C10_block_of_requires_stone_witness :
    (get_color (reset 2) 4 = EMPTY ∨ get_color (reset 2) 4 = BORDER) ∧
      (_block_of (reset 2) 4 = none ∧ _detect_and_process_capture (reset 2) 4 = none) :=
  ⟨Or.inl (by decide), C10_block_of_requires_stone (reset 2) 4 (Or.inl (by decide))⟩

/-- Claim C1 evaluation: the claim that `is_legal` leaves the board it is
called on completely unchanged fails on the code: `copy` passes the very
same `store` lists to the copy (`b.setStore(self.store)`), so a legal
simulated move appends the point to the original's color index list.  On
the fresh size-2 board, `is_legal(pt(1,1), BLACK)` leaves the cells
unchanged but turns the original's black index list from `[]` into `[4]`.
The source's own comment says the copy "prevents the board from being
messed up by the move", so the code contradicts its documentation. -/
theorem C1_is_legal_mutates_original_store :
    is_legal (reset 2) 4 BLACK =
        some (true, { reset 2 with store := ⟨[], [4], []⟩ }) ∧
      (reset 2).store.black = [] ∧
      (is_legal (reset 2) 4 BLACK).map (fun r => r.2.board) = some (reset 2).board := by
  refine ⟨by decide, by decide, by decide⟩

theorem opponent_ne_border {c : Nat} (hc : c = BLACK ∨ c = WHITE) :
    opponent c ≠ BORDER := by
  rcases hc with h | h <;> subst h <;> decide

theorem eye_fold_fst (b : Board) (c : Nat) (hopp : opponent c ≠ BORDER)
    (l : List Nat) (fa : Nat × Nat) :
    (l.foldl (fun (fa : Nat × Nat) d =>
      if get_color b d == BORDER then (fa.1, 1)
      else if get_color b d == opponent c then (fa.1 + 1, fa.2)
      else fa) fa).1 = fa.1 + l.countP (fun d => get_color b d == opponent c) := by
  induction l generalizing fa with
  | nil => simp
  | cons d l ih =>
    simp only [List.foldl_cons, List.countP_cons]
    by_cases hB : get_color b d = BORDER
    · have hBb : (get_color b d == BORDER) = true := by simp [hB]
      have hno : (get_color b d == opponent c) = false := by
        simp only [beq_eq_false_iff_ne, ne_eq, hB]
        exact fun h => hopp h.symm
      rw [if_pos hBb, ih, hno]
      simp
    · have hBb : ¬((get_color b d == BORDER) = true) := by simp [hB]
      by_cases hO : get_color b d = opponent c
      · have hOb : (get_color b d == opponent c) = true := by simp [hO]
        rw [if_neg hBb, if_pos hOb, ih, hOb]
        simp
        omega
      · have hOb : (get_color b d == opponent c) = false := by simp [hO]
        rw [if_neg hBb, if_neg (by simp [hO]), ih, hOb]
        simp

theorem eye_fold_snd (b : Board) (c : Nat)
    (l : List Nat) (fa : Nat × Nat) :
    (l.foldl (fun (fa : Nat × Nat) d =>
      if get_color b d == BORDER then (fa.1, 1)
      else if get_color b d == opponent c then (fa.1 + 1, fa.2)
      else fa) fa).2 = if ∃ d ∈ l, get_color b d = BORDER then 1 else fa.2 := by
  induction l generalizing fa with
  | nil => simp
  | cons d l ih =>
    simp only [List.foldl_cons]
    by_cases hB : get_color b d = BORDER
    · have hBb : (get_color b d == BORDER) = true := by simp [hB]
      rw [if_pos hBb, ih, ite_self, if_pos ⟨d, List.mem_cons_self d l, hB⟩]
    · have hBb : ¬((get_color b d == BORDER) = true) := by simp [hB]
      have hEx : (∃ x ∈ d :: l, get_color b x = BORDER) ↔ (∃ x ∈ l, get_color b x = BORDER) := by
        constructor
        · rintro ⟨x, hx, hxB⟩
          rcases List.mem_cons.mp hx with rfl | hx
          · exact absurd hxB hB
          · exact ⟨x, hx, hxB⟩
        · rintro ⟨x, hx, hxB⟩
          exact ⟨x, List.mem_cons_of_mem d hx, hxB⟩
      by_cases hO : get_color b d = opponent c
      · rw [if_neg hBb, if_pos (by simp [hO]), ih]
        simp only [hEx]
      · rw [if_neg hBb, if_neg (by simp [hO]), ih]
        simp only [hEx]

theorem is_surrounded_iff (b : Board) (p c : Nat) :
    _is_surrounded b p c = true ↔
      ∀ nb ∈ _neighbors b p, get_color b nb = BORDER ∨ get_color b nb = c := by
  simp [_is_surrounded, List.all_eq_true]

/-- Claim C9: `is_eye(p, c)` is true iff every orthogonal neighbor of `p`
is BORDER or `c`, and the number of opponent-colored cells among the four
diagonal neighbors is at most 1 when no diagonal neighbor is BORDER, and 0
when at least one diagonal neighbor is BORDER. -/
theorem C9_is_eye_characterization (b : Board) (p c : Nat)
    (hc : c = BLACK ∨ c = WHITE) :
    is_eye b p c = true ↔
      ((∀ nb ∈ _neighbors b p, get_color b nb = BORDER ∨ get_color b nb = c) ∧
       (¬(∃ d ∈ _diag_neighbors b p, get_color b d = BORDER) →
          (_diag_neighbors b p).countP (fun d => get_color b d == opponent c) ≤ 1) ∧
       ((∃ d ∈ _diag_neighbors b p, get_color b d = BORDER) →
          (_diag_neighbors b p).countP (fun d => get_color b d == opponent c) = 0)) := by
  by_cases hs : _is_surrounded b p c = true
  · have hsur := (is_surrounded_iff b p c).mp hs
    rw [is_eye]
    rw [if_neg (by simp [hs])]
    have hfst := eye_fold_fst b c (opponent_ne_border hc) (_diag_neighbors b p) (0, 0)
    have hsnd := eye_fold_snd b c (_diag_neighbors b p) (0, 0)
    simp only [decide_eq_true_eq]
    rw [hfst, hsnd]
    by_cases hB : ∃ d ∈ _diag_neighbors b p, get_color b d = BORDER
    · rw [if_pos hB]
      constructor
      · intro h
        simp only [Nat.zero_add] at h
        exact ⟨hsur, fun hn => (hn hB).elim, fun _ => by omega⟩
      · intro ⟨_, _, h3⟩
        have := h3 hB
        simp only [Nat.zero_add]
        omega
    · rw [if_neg hB]
      constructor
      · intro h
        simp only [Nat.zero_add] at h
        exact ⟨hsur, fun _ => by omega, fun hx => (hB hx).elim⟩
      · intro ⟨_, h2, _⟩
        have := h2 hB
        simp only [Nat.zero_add]
        omega
  · constructor
    · intro h
      rw [is_eye, if_pos (by simp [Bool.eq_false_iff.mpr hs])] at h
      exact absurd h (by simp)
    · intro ⟨h1, _, _⟩
      exact absurd ((is_surrounded_iff b p c).mpr h1) hs

/-- Witness for C9: on the size-2 board with black stones at 5 and 7, the
point 4 is a black eye (its EMPTY diagonal 8 and three BORDER diagonals
pass the edge rule). -/
theorem C9_is_eye_characterization_witness :
    is_eye ⟨2, [3, 3, 3, 3, 0, 1, 3, 1, 0, 3, 3, 3, 3], ⟨[], [5, 7], []⟩, none, 1⟩ 4 BLACK = true ↔
      ((∀ nb ∈ _neighbors ⟨2, [3, 3, 3, 3, 0, 1, 3, 1, 0, 3, 3, 3, 3], ⟨[], [5, 7], []⟩, none, 1⟩ 4,
          get_color ⟨2, [3, 3, 3, 3, 0, 1, 3, 1, 0, 3, 3, 3, 3], ⟨[], [5, 7], []⟩, none, 1⟩ nb = BORDER ∨
          get_color ⟨2, [3, 3, 3, 3, 0, 1, 3, 1, 0, 3, 3, 3, 3], ⟨[], [5, 7], []⟩, none, 1⟩ nb = BLACK) ∧
       (¬(∃ d ∈ _diag_neighbors ⟨2, [3, 3, 3, 3, 0, 1, 3, 1, 0, 3, 3, 3, 3], ⟨[], [5, 7], []⟩, none, 1⟩ 4,
            get_color ⟨2, [3, 3, 3, 3, 0, 1, 3, 1, 0, 3, 3, 3, 3], ⟨[], [5, 7], []⟩, none, 1⟩ d = BORDER) →
          (_diag_neighbors ⟨2, [3, 3, 3, 3, 0, 1, 3, 1, 0, 3, 3, 3, 3], ⟨[], [5, 7], []⟩, none, 1⟩ 4).countP
            (fun d => get_color ⟨2, [3, 3, 3, 3, 0, 1, 3, 1, 0, 3, 3, 3, 3], ⟨[], [5, 7], []⟩, none, 1⟩ d ==
              opponent BLACK) ≤ 1) ∧
       ((∃ d ∈ _diag_neighbors ⟨2, [3, 3, 3, 3, 0, 1, 3, 1, 0, 3, 3, 3, 3], ⟨[], [5, 7], []⟩, none, 1⟩ 4,
            get_color ⟨2, [3, 3, 3, 3, 0, 1, 3, 1, 0, 3, 3, 3, 3], ⟨[], [5, 7], []⟩, none, 1⟩ d = BORDER) →
          (_diag_neighbors ⟨2, [3, 3, 3, 3, 0, 1, 3, 1, 0, 3, 3, 3, 3], ⟨[], [5, 7], []⟩, none, 1⟩ 4).countP
            (fun d => get_color ⟨2, [3, 3, 3, 3, 0, 1, 3, 1, 0, 3, 3, 3, 3], ⟨[], [5, 7], []⟩, none, 1⟩ d ==
              opponent BLACK) = 0)) :=
  C9_is_eye_characterization ⟨2, [3, 3, 3, 3, 0, 1, 3, 1, 0, 3, 3, 3, 3], ⟨[], [5, 7], []⟩, none, 1⟩ 4 BLACK
    (Or.inl (by decide))

theorem getD_set {α : Type} (l : List α) (j i : Nat) (v d : α) :
    (l.set j v).getD i d = if j = i ∧ j < l.length then v else l.getD i d := by
  by_cases hi : i < l.length
  · have hi2 : i < (l.set j v).length := by simpa using hi
    rw [List.getD_eq_getElem _ _ hi2, List.getD_eq_getElem _ _ hi, List.getElem_set]
    by_cases hji : j = i
    · subst hji
      simp [hi]
    · simp [hji]
  · have h1 : l.length ≤ i := Nat.le_of_not_lt hi
    rw [List.getD_eq_default _ _ h1, List.getD_eq_default _ _ (by simpa using h1)]
    split
    · rename_i h
      exact absurd (h.1 ▸ h.2) hi
    · rfl

theorem setRange_length (v : Nat) (n : Nat) : ∀ (l : List Nat) (start : Nat),
    (setRange l start v n).length = l.length := by
  induction n with
  | zero => intro l start; rfl
  | succ n ih =>
    intro l start
    show (setRange (l.set start v) (start + 1) v n).length = l.length
    rw [ih, List.length_set]

theorem getD_setRange (v : Nat) (n : Nat) : ∀ (l : List Nat) (start i d : Nat),
    (setRange l start v n).getD i d =
      if start ≤ i ∧ i < start + n ∧ i < l.length then v else l.getD i d := by
  induction n with
  | zero =>
    intro l start i d
    rw [setRange, if_neg (by omega)]
  | succ n ih =>
    intro l start i d
    show (setRange (l.set start v) (start + 1) v n).getD i d = _
    rw [ih, List.length_set]
    by_cases h1 : start + 1 ≤ i ∧ i < start + 1 + n ∧ i < l.length
    · rw [if_pos h1, if_pos (by omega)]
    · rw [if_neg h1, getD_set]
      by_cases h2 : start = i ∧ start < l.length
      · rw [if_pos h2, if_pos (by omega)]
      · rw [if_neg h2, if_neg (by omega)]

theorem initialize_rows_length (size : Nat) (m : Nat) : ∀ (bd : List Nat),
    ((List.range m).foldl (fun acc r => setRange acc (row_start size (r + 1)) EMPTY size) bd).length
      = bd.length := by
  induction m with
  | zero => intro bd; rfl
  | succ m ih =>
    intro bd
    rw [List.range_succ, List.foldl_append, List.foldl_cons, List.foldl_nil,
      setRange_length, ih]

open Classical in
theorem initialize_rows_getD (size : Nat) (m : Nat) : ∀ (bd : List Nat) (i d : Nat),
    ((List.range m).foldl (fun acc r => setRange acc (row_start size (r + 1)) EMPTY size) bd).getD i d =
      if (∃ r, 1 ≤ r ∧ r ≤ m ∧ row_start size r ≤ i ∧ i < row_start size r + size) ∧ i < bd.length
      then EMPTY else bd.getD i d := by
  induction m with
  | zero =>
    intro bd i d
    rw [if_neg]
    · rfl
    · rintro ⟨⟨r, h1, h2, -, -⟩, -⟩
      omega
  | succ m ih =>
    intro bd i d
    rw [List.range_succ, List.foldl_append, List.foldl_cons, List.foldl_nil,
      getD_setRange, initialize_rows_length, ih]
    by_cases hN : row_start size (m + 1) ≤ i ∧ i < row_start size (m + 1) + size ∧ i < bd.length
    · rw [if_pos hN, if_pos ⟨⟨m + 1, by omega, by omega, hN.1, hN.2.1⟩, hN.2.2⟩]
    · rw [if_neg hN]
      by_cases hO : (∃ r, 1 ≤ r ∧ r ≤ m + 1 ∧ row_start size r ≤ i ∧ i < row_start size r + size)
          ∧ i < bd.length
      · rw [if_pos hO]
        obtain ⟨⟨r, h1, h2, h3, h4⟩, hlen⟩ := hO
        have hr : r ≤ m := by
          rcases Nat.lt_or_ge r (m + 1) with h | h
          · omega
          · exfalso
            have : r = m + 1 := by omega
            subst this
            exact hN ⟨h3, h4, hlen⟩
        rw [if_pos ⟨⟨r, h1, hr, h3, h4⟩, hlen⟩]
      · rw [if_neg hO, if_neg]
        rintro ⟨⟨r, h1, h2, h3, h4⟩, hlen⟩
        exact hO ⟨⟨r, h1, by omega, h3, h4⟩, hlen⟩

theorem isInterior_iff_row (size i : Nat) :
    isInterior size i ↔
      ∃ r, 1 ≤ r ∧ r ≤ size ∧ row_start size r ≤ i ∧ i < row_start size r + size := by
  unfold isInterior row_start
  constructor
  · intro ⟨h1, h2, h3, h4⟩
    have hdm := Nat.div_add_mod i (size + 1)
    have hc : (size + 1) * (i / (size + 1)) = (i / (size + 1)) * (size + 1) :=
      Nat.mul_comm _ _
    exact ⟨i / (size + 1), h1, h2, by omega, by omega⟩
  · rintro ⟨r, hr1, hr2, hle, hlt⟩
    have hkey : i = (size + 1) * r + (i - r * (size + 1)) := by
      have hc : (size + 1) * r = r * (size + 1) := Nat.mul_comm _ _
      omega
    have hccbig : i - r * (size + 1) < size + 1 := by omega
    have hdiv : i / (size + 1) = r := by
      conv_lhs => rw [hkey]
      rw [Nat.mul_add_div (by omega), Nat.div_eq_of_lt hccbig]
      omega
    have hmod : i % (size + 1) = i - r * (size + 1) := by
      conv_lhs => rw [hkey]
      rw [Nat.mul_add_mod, Nat.mod_eq_of_lt hccbig]
    refine ⟨by omega, by omega, by omega, by omega⟩

theorem isInterior_lt (size i : Nat) (h : isInterior size i) :
    i < size * size + 3 * (size + 1) := by
  rw [isInterior_iff_row] at h
  obtain ⟨r, h1, h2, h3, h4⟩ := h
  unfold row_start at h3 h4
  have hb : r * (size + 1) ≤ size * (size + 1) := Nat.mul_le_mul_right _ h2
  have hsz : size * (size + 1) = size * size + size := by ring
  omega

theorem reset_board_length (size : Nat) :
    (reset size).board.length = size * size + 3 * (size + 1) := by
  show (_initialize_empty_points size _).length = _
  unfold _initialize_empty_points
  rw [initialize_rows_length, List.length_replicate]

theorem reset_getD (size i : Nat) :
    (reset size).board.getD i BORDER = if isInterior size i then EMPTY else BORDER := by
  show (_initialize_empty_points size _).getD i BORDER = _
  unfold _initialize_empty_points
  rw [initialize_rows_getD, List.length_replicate]
  by_cases h : isInterior size i
  · rw [if_pos ⟨(isInterior_iff_row size i).mp h, isInterior_lt size i h⟩, if_pos h]
  · rw [if_neg (fun hx => h ((isInterior_iff_row size i).mpr hx.1)), if_neg h]
    by_cases hlen : i < size * size + 3 * (size + 1)
    · rw [List.getD_eq_getElem _ _ (by simpa using hlen), List.getElem_replicate]
    · rw [List.getD_eq_default]
      simpa using Nat.le_of_not_lt hlen

theorem reset_board_eq_map (size : Nat) :
    (reset size).board = (List.range (size * size + 3 * (size + 1))).map
      (fun i => if isInterior size i then EMPTY else BORDER) := by
  apply List.ext_getElem
  · rw [reset_board_length]
    simp
  · intro n h1 h2
    have h3 := reset_getD size n
    rw [List.getD_eq_getElem _ _ h1] at h3
    rw [h3, List.getElem_map, List.getElem_range]

theorem countP_interior_range (size : Nat) :
    (List.range (size * size + 3 * (size + 1))).countP
      (fun i => decide (isInterior size i)) = size * size := by
  rw [List.countP_eq_length_filter]
  have hcard : ((List.range (size * size + 3 * (size + 1))).filter
        (fun i => decide (isInterior size i))).length
      = ((Finset.range (size * size + 3 * (size + 1))).filter
        (fun i => isInterior size i)).card := by
    rw [Finset.card_def, Finset.filter_val, Finset.range_val,
      show (Multiset.range (size * size + 3 * (size + 1)))
          = ((List.range (size * size + 3 * (size + 1)) : List Nat) : Multiset Nat) from rfl,
      Multiset.filter_coe, Multiset.coe_card]
  rw [hcard]
  have himg : (Finset.range (size * size + 3 * (size + 1))).filter (fun i => isInterior size i)
      = ((Finset.Icc 1 size) ×ˢ (Finset.Icc 1 size)).image
          (fun rc : Nat × Nat => rc.1 * (size + 1) + rc.2) := by
    ext i
    simp only [Finset.mem_filter, Finset.mem_range, Finset.mem_image, Finset.mem_product,
      Finset.mem_Icc]
    constructor
    · intro ⟨hiN, hint⟩
      obtain ⟨r, h1, h2, h3, h4⟩ := (isInterior_iff_row size i).mp hint
      unfold row_start at h3 h4
      refine ⟨(r, i - r * (size + 1)), ⟨⟨h1, h2⟩, by omega, by omega⟩, ?_⟩
      show r * (size + 1) + (i - r * (size + 1)) = i
      omega
    · rintro ⟨⟨r, cc⟩, ⟨⟨hr1, hr2⟩, hc1, hc2⟩, rfl⟩
      dsimp only
      have hb : r * (size + 1) ≤ size * (size + 1) := Nat.mul_le_mul_right _ hr2
      have hsz : size * (size + 1) = size * size + size := by ring
      constructor
      · omega
      · rw [isInterior_iff_row]
        refine ⟨r, hr1, hr2, by unfold row_start; omega, by unfold row_start; omega⟩
  rw [himg, Finset.card_image_of_injOn, Finset.card_product]
  · simp [Nat.card_Icc]
  · rintro ⟨r1, c1⟩ hmem1 ⟨r2, c2⟩ hmem2 heq
    simp only [Finset.coe_product, Set.mem_prod, Finset.mem_coe, Finset.mem_Icc] at hmem1 hmem2
    simp only at heq
    have hr : r1 = r2 := by
      by_contra hne
      rcases Nat.lt_or_ge r1 r2 with hlt | hge
      · have hs : r1 + 1 ≤ r2 := hlt
        have h2 : (r1 + 1) * (size + 1) ≤ r2 * (size + 1) := Nat.mul_le_mul_right _ hs
        have h3 : (r1 + 1) * (size + 1) = r1 * (size + 1) + (size + 1) := by ring
        omega
      · have hlt2 : r2 < r1 := by omega
        have hs : r2 + 1 ≤ r1 := hlt2
        have h2 : (r2 + 1) * (size + 1) ≤ r1 * (size + 1) := Nat.mul_le_mul_right _ hs
        have h3 : (r2 + 1) * (size + 1) = r2 * (size + 1) + (size + 1) := by ring
        omega
    subst hr
    have hc : c1 = c2 := by omega
    subst hc
    rfl

theorem reset_count_empty (size : Nat) :
    (reset size).board.count EMPTY = size * size := by
  rw [reset_board_eq_map, List.count_eq_countP, List.countP_map]
  have hcongr : List.countP
      ((fun x => x == EMPTY) ∘ fun i => if isInterior size i then EMPTY else BORDER)
      (List.range (size * size + 3 * (size + 1)))
      = List.countP (fun i => decide (isInterior size i))
        (List.range (size * size + 3 * (size + 1))) := by
    apply List.countP_congr
    intro x _
    by_cases h : isInterior size x <;> simp [Function.comp, h, EMPTY, BORDER]
  rw [hcongr]
  exact countP_interior_range size

/-- Claim C7: a freshly constructed Board(size) with 2 <= size <= MAXSIZE
has a cell array of length size*size + 3*(size+1), in which exactly the
size*size interior cells are EMPTY and every other cell is BORDER, and all
three bookkeeping lists are empty. -/
theorem C7_fresh_board_shape (size : Nat) (h2 : 2 ≤ size) (hM : size ≤ MAXSIZE) :
    newBoard size = some (reset size) ∧
    (reset size).board.length = size * size + 3 * (size + 1) ∧
    (∀ i, (reset size).board.getD i BORDER = if isInterior size i then EMPTY else BORDER) ∧
    (reset size).board.count EMPTY = size * size ∧
    (∀ x ∈ (reset size).board, x = EMPTY ∨ x = BORDER) ∧
    (reset size).store = ⟨[], [], []⟩ := by
  refine ⟨?_, reset_board_length size, fun i => reset_getD size i, reset_count_empty size, ?_, rfl⟩
  · unfold newBoard
    rw [if_pos ⟨h2, hM⟩]
  · intro x hx
    rw [reset_board_eq_map] at hx
    obtain ⟨i, -, hfx⟩ := List.mem_map.mp hx
    by_cases h : isInterior size i
    · rw [if_pos h] at hfx
      exact Or.inl hfx.symm
    · rw [if_neg h] at hfx
      exact Or.inr hfx.symm

theorem get_color_lt_length {b : Board} {p c : Nat} (h : get_color b p = c)
    (hc : c ≠ BORDER) : p < b.board.length := by
  by_contra h2
  rw [get_color, List.getD_eq_default _ _ (Nat.le_of_not_lt h2)] at h
  exact hc h.symm

theorem mem_neighbors_of_color {b : Board} {p c q : Nat} :
    q ∈ neighbors_of_color b p c ↔ q ∈ _neighbors b p ∧ get_color b q = c := by
  simp [neighbors_of_color, List.mem_filter]

theorem getD_replicate_false (n q : Nat) :
    (List.replicate n false).getD q false = false := by
  rw [List.getD_eq_getElem?_getD, List.getElem?_getD_replicate_default_eq]

theorem count_false_set_true (l : List Bool) : ∀ (j : Nat), j < l.length →
    l.getD j false = false → (l.set j true).count false + 1 = l.count false := by
  induction l with
  | nil => intro j hj; simp at hj
  | cons a t ih =>
    intro j hj hf
    cases j with
    | zero =>
      have ha : a = false := by simpa using hf
      subst ha
      simp [List.count_cons]
    | succ j =>
      have hj2 : j < t.length := by simpa using hj
      have hf2 : t.getD j false = false := by simpa using hf
      have h3 := ih j hj2 hf2
      simp only [List.set, List.count_cons]
      omega

theorem flood_fold_spec :
    ∀ (nbs : List Nat) (marker : List Bool) (stack : List Nat),
      (∀ nb ∈ nbs, nb < marker.length) →
      ∃ m st, (nbs.foldlM
          (fun (ms : List Bool × List Nat) nb =>
            if ms.1.getD nb false then some ms
            else if nb < ms.1.length then some (ms.1.set nb true, nb :: ms.2) else none)
          (marker, stack)) = some (m, st) ∧
        ∃ pushed,
          st = pushed ++ stack ∧
          (∀ q ∈ pushed, q ∈ nbs) ∧
          (∀ q ∈ pushed, marker.getD q false = false) ∧
          (∀ q, m.getD q false = true ↔ (marker.getD q false = true ∨ q ∈ pushed)) ∧
          (∀ nb ∈ nbs, m.getD nb false = true) ∧
          m.length = marker.length ∧
          pushed.Nodup ∧
          st.length + m.count false = stack.length + marker.count false := by
  intro nbs
  induction nbs with
  | nil =>
    intro marker stack _
    refine ⟨marker, stack, by simp [List.foldlM_nil], [], by simp, by simp, by simp,
      by simp, by simp, rfl, List.nodup_nil, rfl⟩
  | cons nb nbs ih =>
    intro marker stack hin
    rw [List.foldlM_cons]
    by_cases hmar : marker.getD nb false = true
    · rw [if_pos hmar]
      obtain ⟨m, st, heq, pushed, hst, hpin, hpfresh, hiff, hmark, hlen, hnd, hcount⟩ :=
        ih marker stack (fun x hx => hin x (List.mem_cons_of_mem nb hx))
      refine ⟨m, st, by simpa using heq, pushed, hst,
        fun q hq => List.mem_cons_of_mem nb (hpin q hq), hpfresh, hiff, ?_, hlen, hnd, hcount⟩
      intro x hx
      rcases List.mem_cons.mp hx with rfl | hx
      · exact (hiff x).mpr (Or.inl hmar)
      · exact hmark x hx
    · have hmar2 : marker.getD nb false = false := by
        cases h : marker.getD nb false
        · rfl
        · exact absurd h hmar
      have hnb : nb < marker.length := hin nb (List.mem_cons_self nb nbs)
      rw [if_neg hmar, if_pos hnb]
      obtain ⟨m, st, heq, pushed, hst, hpin, hpfresh, hiff, hmark, hlen, hnd, hcount⟩ :=
        ih (marker.set nb true) (nb :: stack)
          (fun x hx => by rw [List.length_set]; exact hin x (List.mem_cons_of_mem nb hx))
      have hset : ∀ q, (marker.set nb true).getD q false =
          if nb = q ∧ nb < marker.length then true else marker.getD q false :=
        fun q => getD_set marker nb q true false
      refine ⟨m, st, by simpa using heq, pushed ++ [nb], ?_, ?_, ?_, ?_, ?_, ?_, ?_, ?_⟩
      · rw [hst, List.append_assoc]
        rfl
      · intro q hq
        rcases List.mem_append.mp hq with hq | hq
        · exact List.mem_cons_of_mem nb (hpin q hq)
        · have hqe : q = nb := by simpa using hq
          rw [hqe]
          exact List.mem_cons_self nb nbs
      · intro q hq
        rcases List.mem_append.mp hq with hq | hq
        · have hfq := hpfresh q hq
          rw [hset q] at hfq
          by_cases hqnb : nb = q
          · rw [if_pos ⟨hqnb, hnb⟩] at hfq
            exact absurd hfq (by simp)
          · rwa [if_neg (fun hx => hqnb hx.1)] at hfq
        · have : q = nb := by simpa using hq
          subst this
          exact hmar2
      · intro q
        rw [hiff q, hset q]
        by_cases hqnb : nb = q
        · subst hqnb
          rw [if_pos ⟨rfl, hnb⟩]
          simp
        · rw [if_neg (fun hx => hqnb hx.1)]
          simp only [List.mem_append, List.mem_singleton]
          constructor
          · rintro (h | h)
            · exact Or.inl h
            · exact Or.inr (Or.inl h)
          · rintro (h | h | h)
            · exact Or.inl h
            · exact Or.inr h
            · exact absurd h.symm hqnb
      · intro x hx
        rcases List.mem_cons.mp hx with rfl | hx
        · exact (hiff x).mpr (Or.inl (by rw [hset x, if_pos ⟨rfl, hnb⟩]))
        · exact hmark x hx
      · rw [hlen, List.length_set]
      · rw [List.nodup_append]
        refine ⟨hnd, List.nodup_singleton nb, ?_⟩
        intro q hq hq2
        have : q = nb := by simpa using hq2
        subst this
        have hfq := hpfresh q hq
        rw [hset q, if_pos ⟨rfl, hnb⟩] at hfq
        exact absurd hfq (by simp)
      · have hc2 := count_false_set_true marker nb hnb hmar2
        simp only [List.length_cons] at hcount
        omega

theorem processPoint_spec (b : Board) (c : Nat) (marker : List Bool) (rest : List Nat)
    (p : Nat) (hin : ∀ nb ∈ neighbors_of_color b p c, nb < marker.length) :
    ∃ m st, processPoint b c marker rest p = some (m, st) ∧
      ∃ pushed,
        st = pushed ++ rest ∧
        (∀ q ∈ pushed, q ∈ neighbors_of_color b p c) ∧
        (∀ q ∈ pushed, marker.getD q false = false) ∧
        (∀ q, m.getD q false = true ↔ (marker.getD q false = true ∨ q ∈ pushed)) ∧
        (∀ nb ∈ neighbors_of_color b p c, m.getD nb false = true) ∧
        m.length = marker.length ∧
        pushed.Nodup ∧
        st.length + m.count false = rest.length + marker.count false :=
  flood_fold_spec (neighbors_of_color b p c) marker rest hin

theorem floodLoop_spec (b : Board) (c seed : Nat) (hcBW : c = BLACK ∨ c = WHITE) :
    ∀ (fuel : Nat) (marker : List Bool) (stack trace : List Nat),
      stack.length + marker.count false < fuel →
      marker.length = b.board.length →
      (∀ q, marker.getD q false = true → Reach b c seed q) →
      marker.getD seed false = true →
      (∀ x ∈ stack, marker.getD x false = true) →
      (∀ x ∈ trace, marker.getD x false = true) →
      (∀ q, marker.getD q false = true → q ∈ stack ∨ q ∈ trace) →
      (∀ x ∈ trace, ∀ q ∈ neighbors_of_color b x c, marker.getD q false = true) →
      trace.Nodup →
      stack.Nodup →
      (∀ x ∈ stack, x ∉ trace) →
      ∃ m t, floodLoop b c fuel marker stack trace = some (m, t) ∧
        m.getD seed false = true ∧
        (∀ q, m.getD q false = true → Reach b c seed q) ∧
        (∀ x q, m.getD x false = true → q ∈ neighbors_of_color b x c →
          m.getD q false = true) ∧
        m.length = marker.length ∧
        t.Nodup := by
  intro fuel
  induction fuel with
  | zero =>
    intro marker stack trace hfuel
    omega
  | succ fuel ih =>
    intro marker stack trace hfuel hml hreach hseed hsm htm hcov hcl htnd hsnd hdisj
    cases stack with
    | nil =>
      refine ⟨marker, trace, rfl, hseed, hreach, ?_, rfl, htnd⟩
      intro x q hx hq
      rcases hcov x hx with h | h
      · exact absurd h (List.not_mem_nil x)
      · exact hcl x h q hq
    | cons p rest =>
      have hcb : c ≠ BORDER := by
        rcases hcBW with h | h <;> subst h <;> decide
      have hin : ∀ nb ∈ neighbors_of_color b p c, nb < marker.length := by
        intro nb hnb
        have h2 := get_color_lt_length (mem_neighbors_of_color.mp hnb).2 hcb
        omega
      obtain ⟨m1, st1, hps, pushed, hst1, hpin, hpfresh, hmiff, hnbmark, hm1len, hpnd, hcount⟩ :=
        processPoint_spec b c marker rest p hin
      have hstep : floodLoop b c (fuel + 1) marker (p :: rest) trace
          = floodLoop b c fuel m1 st1 (trace ++ [p]) := by
        simp only [floodLoop, hps]
      rw [hstep]
      have hpmark : marker.getD p false = true := hsm p (List.mem_cons_self p rest)
      have hreachp : Reach b c seed p := hreach p hpmark
      have hres := ih m1 st1 (trace ++ [p])
      rw [hm1len] at hres
      apply hres
      · simp only [List.length_cons] at hfuel
        omega
      · exact hml
      · intro q hq
        rcases (hmiff q).mp hq with h | h
        · exact hreach q h
        · exact Relation.ReflTransGen.tail hreachp (hpin q h)
      · exact (hmiff seed).mpr (Or.inl hseed)
      · intro x hx
        rcases List.mem_append.mp (hst1 ▸ hx) with h | h
        · exact (hmiff x).mpr (Or.inr h)
        · exact (hmiff x).mpr (Or.inl (hsm x (List.mem_cons_of_mem p h)))
      · intro x hx
        rcases List.mem_append.mp hx with h | h
        · exact (hmiff x).mpr (Or.inl (htm x h))
        · have : x = p := by simpa using h
          subst this
          exact (hmiff x).mpr (Or.inl hpmark)
      · intro q hq
        rcases (hmiff q).mp hq with h | h
        · rcases hcov q h with h2 | h2
          · rcases List.mem_cons.mp h2 with rfl | h2
            · exact Or.inr (List.mem_append.mpr (Or.inr (List.mem_singleton.mpr rfl)))
            · exact Or.inl (hst1 ▸ List.mem_append.mpr (Or.inr h2))
          · exact Or.inr (List.mem_append.mpr (Or.inl h2))
        · exact Or.inl (hst1 ▸ List.mem_append.mpr (Or.inl h))
      · intro x hx q hq
        rcases List.mem_append.mp hx with h | h
        · exact (hmiff q).mpr (Or.inl (hcl x h q hq))
        · have : x = p := by simpa using h
          subst this
          exact hnbmark q hq
      · rw [List.nodup_append]
        refine ⟨htnd, List.nodup_singleton p, ?_⟩
        intro q hq hq2
        have : q = p := by simpa using hq2
        subst this
        exact hdisj q (List.mem_cons_self q rest) hq
      · rw [hst1, List.nodup_append]
        refine ⟨hpnd, (List.nodup_cons.mp hsnd).2, ?_⟩
        intro q hq hq2
        have hfq := hpfresh q hq
        have hmq := hsm q (List.mem_cons_of_mem p hq2)
        rw [hfq] at hmq
        exact absurd hmq (by simp)
      · intro x hx hx2
        rcases List.mem_append.mp (hst1 ▸ hx) with h | h
        · rcases List.mem_append.mp hx2 with h2 | h2
          · have hfq := hpfresh x h
            have hmq := htm x h2
            rw [hfq] at hmq
            exact absurd hmq (by simp)
          · have : x = p := by simpa using h2
            subst this
            have hfq := hpfresh x h
            rw [hfq] at hpmark
            exact absurd hpmark (by simp)
        · rcases List.mem_append.mp hx2 with h2 | h2
          · exact hdisj x (List.mem_cons_of_mem p h) h2
          · have : x = p := by simpa using h2
            subst this
            exact (List.nodup_cons.mp hsnd).1 h

theorem block_of_trace_spec (b : Board) (seed : Nat)
    (hlen : b.board.length = b.maxpoint)
    (hstone : get_color b seed = BLACK ∨ get_color b seed = WHITE) :
    ∃ m t, _block_of_trace b seed = some (m, t) ∧
      _block_of b seed = some m ∧
      m.length = b.maxpoint ∧
      m.getD seed false = true ∧
      (∀ q, m.getD q false = true → Reach b (get_color b seed) seed q) ∧
      (∀ x q, m.getD x false = true → q ∈ neighbors_of_color b x (get_color b seed) →
        m.getD q false = true) ∧
      (∀ q, Reach b (get_color b seed) seed q → m.getD q false = true) ∧
      t.Nodup := by
  have hcb : get_color b seed ≠ BORDER := by
    rcases hstone with h | h <;> rw [h] <;> decide
  have hseedlt : seed < b.board.length := get_color_lt_length rfl hcb
  have hseedlt2 : seed < (List.replicate b.maxpoint false).length := by
    rw [List.length_replicate]
    omega
  have hbw : is_black_white (get_color b seed) = true := by
    rcases hstone with h | h <;> rw [h] <;> decide
  have hset : ∀ q, ((List.replicate b.maxpoint false).set seed true).getD q false =
      if seed = q ∧ seed < (List.replicate b.maxpoint false).length then true
      else (List.replicate b.maxpoint false).getD q false :=
    fun q => getD_set _ seed q true false
  have hmark0 : ∀ q, ((List.replicate b.maxpoint false).set seed true).getD q false = true ↔
      q = seed := by
    intro q
    rw [hset q]
    by_cases hq : seed = q
    · rw [if_pos ⟨hq, hseedlt2⟩]
      simp [hq.symm]
    · rw [if_neg (fun hx => hq hx.1), getD_replicate_false]
      simp [Ne.symm hq]
  have hcount0 : ((List.replicate b.maxpoint false).set seed true).count false + 1
      = b.maxpoint := by
    have h5 := count_false_set_true (List.replicate b.maxpoint false) seed hseedlt2
      (getD_replicate_false _ _)
    rw [List.count_replicate] at h5
    simpa using h5
  obtain ⟨m, t, heq, hm1, hm2, hm3, hmlen, hm4⟩ :=
    floodLoop_spec b (get_color b seed) seed hstone (b.maxpoint + 2)
      ((List.replicate b.maxpoint false).set seed true) [seed] []
      (by simp only [List.length_cons, List.length_nil]; omega)
      (by rw [List.length_set, List.length_replicate, hlen])
      (fun q hq => by rw [(hmark0 q).mp hq]; exact Relation.ReflTransGen.refl)
      ((hmark0 seed).mpr rfl)
      (fun x hx => by
        have : x = seed := by simpa using hx
        subst this
        exact (hmark0 x).mpr rfl)
      (fun x hx => absurd hx (List.not_mem_nil x))
      (fun q hq => Or.inl (by simp [(hmark0 q).mp hq]))
      (fun x hx => absurd hx (List.not_mem_nil x))
      List.nodup_nil
      (List.nodup_singleton seed)
      (fun x _ h => List.not_mem_nil x h)
  have hmain : _block_of_trace b seed = some (m, t) := by
    unfold _block_of_trace
    rw [if_pos hbw, if_pos hseedlt2]
    exact heq
  have hmlen2 : m.length = b.maxpoint := by
    rw [hmlen, List.length_set, List.length_replicate]
  refine ⟨m, t, hmain, by rw [_block_of, hmain]; rfl, hmlen2, hm1, hm2, hm3, ?_, hm4⟩
  intro q hq
  induction hq with
  | refl => exact hm1
  | tail _ hstep ihq =>
    unfold sameColorStep at hstep
    exact hm3 _ _ ihq hstep

/-- Claim C8: for every point holding a BLACK or WHITE stone on a board
whose array has the expected length, `_block_of` terminates with a marker
set that contains the seed, is connected (every marked position is
reachable from the seed through same-color orthogonal steps), is maximal
(every same-color orthogonal neighbor of a marked position is marked), is
exactly the set of reachable positions, and whose trace of popped points
visits no position twice. -/
theorem C8_block_of_correct (b : Board) (seed : Nat)
    (hlen : b.board.length = b.maxpoint)
    (hstone : get_color b seed = BLACK ∨ get_color b seed = WHITE) :
    ∃ m t, _block_of_trace b seed = some (m, t) ∧
      _block_of b seed = some m ∧
      m.getD seed false = true ∧
      (∀ q, m.getD q false = true → Reach b (get_color b seed) seed q) ∧
      (∀ x q, m.getD x false = true → q ∈ neighbors_of_color b x (get_color b seed) →
        m.getD q false = true) ∧
      (∀ q, Reach b (get_color b seed) seed q → m.getD q false = true) ∧
      t.Nodup := by
  obtain ⟨m, t, h1, h2, -, h4, h5, h6, h7, h8⟩ := block_of_trace_spec b seed hlen hstone
  exact ⟨m, t, h1, h2, h4, h5, h6, h7, h8⟩

/-- Witness for C8 on the size-3 board with the black group at 5 and 6. -/
theorem C8_block_of_correct_witness :
    (wbLib.board.length = wbLib.maxpoint ∧
      (get_color wbLib 5 = BLACK ∨ get_color wbLib 5 = WHITE)) ∧
    (∃ m t, _block_of_trace wbLib 5 = some (m, t) ∧
      _block_of wbLib 5 = some m ∧
      m.getD 5 false = true ∧
      (∀ q, m.getD q false = true → Reach wbLib (get_color wbLib 5) 5 q) ∧
      (∀ x q, m.getD x false = true → q ∈ neighbors_of_color wbLib x (get_color wbLib 5) →
        m.getD q false = true) ∧
      (∀ q, Reach wbLib (get_color wbLib 5) 5 q → m.getD q false = true) ∧
      t.Nodup) :=
  ⟨⟨by decide, Or.inl (by decide)⟩,
    C8_block_of_correct wbLib 5 (by decide) (Or.inl (by decide))⟩

theorem mem_where1d {mask : List Bool} {i : Nat} :
    i ∈ where1d mask ↔ mask.getD i false = true := by
  unfold where1d
  rw [List.mem_filter, List.mem_range]
  constructor
  · exact fun h => h.2
  · intro h
    refine ⟨?_, h⟩
    by_contra h2
    rw [List.getD_eq_default _ _ (Nat.le_of_not_lt h2)] at h
    exact absurd h (by simp)

theorem has_liberty_iff (b : Board) (block : List Bool) :
    _has_liberty b block = true ↔
      ∃ st, block.getD st false = true ∧
        ∃ nb ∈ _neighbors b st, get_color b nb = EMPTY := by
  unfold _has_liberty
  rw [List.any_eq_true]
  constructor
  · rintro ⟨st, hmem, hne⟩
    refine ⟨st, mem_where1d.mp hmem, ?_⟩
    rw [Bool.not_eq_true', List.isEmpty_eq_false] at hne
    obtain ⟨nb, hnb⟩ := List.exists_mem_of_ne_nil _ hne
    exact ⟨nb, (mem_neighbors_of_color.mp hnb).1, (mem_neighbors_of_color.mp hnb).2⟩
  · rintro ⟨st, hst, nb, hnb, hemp⟩
    refine ⟨st, mem_where1d.mpr hst, ?_⟩
    rw [Bool.not_eq_true', List.isEmpty_eq_false]
    intro hnil
    have : nb ∈ neighbors_of_color b st EMPTY := mem_neighbors_of_color.mpr ⟨hnb, hemp⟩
    rw [hnil] at this
    exact List.not_mem_nil nb this

theorem foldl_set_length (v : Nat) (ps : List Nat) : ∀ (bd : List Nat),
    (ps.foldl (fun acc j => acc.set j v) bd).length = bd.length := by
  induction ps with
  | nil => intro bd; rfl
  | cons p ps ih =>
    intro bd
    rw [List.foldl_cons, ih, List.length_set]

theorem foldl_set_getD (v : Nat) (ps : List Nat) : ∀ (bd : List Nat) (i d : Nat),
    (ps.foldl (fun acc j => acc.set j v) bd).getD i d =
      if i ∈ ps ∧ i < bd.length then v else bd.getD i d := by
  induction ps with
  | nil =>
    intro bd i d
    rw [List.foldl_nil, if_neg (fun h => List.not_mem_nil i h.1)]
  | cons p ps ih =>
    intro bd i d
    rw [List.foldl_cons, ih, List.length_set, getD_set]
    by_cases h1 : i ∈ ps ∧ i < bd.length
    · rw [if_pos h1, if_pos ⟨List.mem_cons_of_mem p h1.1, h1.2⟩]
    · rw [if_neg h1]
      by_cases h2 : p = i ∧ p < bd.length
      · rw [if_pos h2, if_pos ⟨h2.1 ▸ List.mem_cons_self p ps, h2.1 ▸ h2.2⟩]
      · rw [if_neg h2, if_neg]
        rintro ⟨hmem, hlt⟩
        rcases List.mem_cons.mp hmem with rfl | hmem
        · exact h2 ⟨rfl, hlt⟩
        · exact h1 ⟨hmem, hlt⟩

/-- Claim C6 (amended): for every point `q` holding a stone,
`_detect_and_process_capture(q)` computes the group of `q`; a group retains
a liberty exactly when some member has an EMPTY orthogonal neighbor; with a
liberty nothing is mutated and no capture is reported; without a liberty
every group position is set to EMPTY and the result flags whether exactly
one stone was captured; the captured set size itself is not part of the
returned result, as the accompanying counterexample shows. -/
theorem C6_detect_capture_main (b : Board) (q : Nat)
    (hlen : b.board.length = b.maxpoint)
    (hstone : get_color b q = BLACK ∨ get_color b q = WHITE) :
    ∃ m, _block_of b q = some m ∧
      (_has_liberty b m = true ↔ ∃ st, m.getD st false = true ∧
          ∃ nb ∈ _neighbors b st, get_color b nb = EMPTY) ∧
      (_has_liberty b m = true → _detect_and_process_capture b q = some (none, b)) ∧
      (_has_liberty b m = false →
        _detect_and_process_capture b q =
          some ((if (where1d m).length = 1 then some q else none),
            { b with board := (where1d m).foldl (fun bd i => bd.set i EMPTY) b.board }) ∧
        (∀ i, ((where1d m).foldl (fun bd i => bd.set i EMPTY) b.board).getD i BORDER =
          if m.getD i false = true then EMPTY else b.board.getD i BORDER)) := by
  obtain ⟨m, t, -, hblock, hmlen, -, -, -, -, -⟩ := block_of_trace_spec b q hlen hstone
  have hmlt : ∀ i, m.getD i false = true → i < b.board.length := by
    intro i hi
    by_contra h2
    have h3 : m.length ≤ i := by omega
    rw [List.getD_eq_default _ _ h3] at hi
    exact absurd hi (by simp)
  refine ⟨m, hblock, has_liberty_iff b m, ?_, ?_⟩
  · intro hl
    unfold _detect_and_process_capture
    rw [hblock]
    simp only [hl, if_true]
  · intro hl
    have hall : (where1d m).all (fun i => decide (i < b.board.length)) = true := by
      rw [List.all_eq_true]
      intro i hi
      exact decide_eq_true (hmlt i (mem_where1d.mp hi))
    constructor
    · unfold _detect_and_process_capture
      rw [hblock]
      simp only [hl]
      rw [if_neg (by simp), if_pos hall]
    · intro i
      rw [foldl_set_getD]
      by_cases hm : m.getD i false = true
      · rw [if_pos ⟨mem_where1d.mpr hm, hmlt i hm⟩, if_pos hm]
      · rw [if_neg (fun h => hm (mem_where1d.mp h.1)), if_neg hm]

/-- Witness for the amended C6 on the single-stone capture board `wbCap1`
and the with-liberty board `wbLib`. -/
theorem C6_detect_capture_main_witness :
    (wbCap1.board.length = wbCap1.maxpoint ∧
      (get_color wbCap1 5 = BLACK ∨ get_color wbCap1 5 = WHITE)) ∧
    (∃ m, _block_of wbCap1 5 = some m ∧
      (_has_liberty wbCap1 m = true ↔ ∃ st, m.getD st false = true ∧
          ∃ nb ∈ _neighbors wbCap1 st, get_color wbCap1 nb = EMPTY) ∧
      (_has_liberty wbCap1 m = true → _detect_and_process_capture wbCap1 5 = some (none, wbCap1)) ∧
      (_has_liberty wbCap1 m = false →
        _detect_and_process_capture wbCap1 5 =
          some ((if (where1d m).length = 1 then some 5 else none),
            { wbCap1 with
                board := (where1d m).foldl (fun bd i => bd.set i EMPTY) wbCap1.board }) ∧
        (∀ i, ((where1d m).foldl (fun bd i => bd.set i EMPTY) wbCap1.board).getD i BORDER =
          if m.getD i false = true then EMPTY else wbCap1.board.getD i BORDER))) :=
  ⟨⟨by decide, Or.inl (by decide)⟩,
    C6_detect_capture_main wbCap1 5 (by decide) (Or.inl (by decide))⟩

/-- Counterexample for C6 as stated: the claim says the operation "reports
the captured set size", but the return value only flags a single-stone
capture.  The liberty-less black groups of `wbCap2` (two stones) and
`wbCap3` (three stones) are both captured, yet the reported result is the
same `none` flag for both, so the captured set size is not reported. -/
theorem C6_capture_size_not_reported :
    (_detect_and_process_capture wbCap2 5).map Prod.fst = some none ∧
    (_detect_and_process_capture wbCap3 5).map Prod.fst = some none ∧
    (_block_of wbCap2 5).map (fun m => (where1d m).length) = some 2 ∧
    (_block_of wbCap3 5).map (fun m => (where1d m).length) = some 3 ∧
    (_block_of wbCap2 5).map (fun m => _has_liberty wbCap2 m) = some false ∧
    (_block_of wbCap3 5).map (fun m => _has_liberty wbCap3 m) = some false := by
  refine ⟨by decide, by decide, by decide, by decide, by decide, by decide⟩

/-- Witness for C7 at size 2. -/
theorem C7_fresh_board_shape_witness :
    newBoard 2 = some (reset 2) ∧
    (reset 2).board.length = 2 * 2 + 3 * (2 + 1) ∧
    (∀ i, (reset 2).board.getD i BORDER = if isInterior 2 i then EMPTY else BORDER) ∧
    (reset 2).board.count EMPTY = 2 * 2 ∧
    (∀ x ∈ (reset 2).board, x = EMPTY ∨ x = BORDER) ∧
    (reset 2).store = ⟨[], [], []⟩ :=
  C7_fresh_board_shape 2 (by decide) (by decide)

theorem store_get_set_self (s : Store) (c : Nat) (l : List Nat) (hc : c ≤ 2) :
    (s.set c l).get c = l := by
  unfold Store.get Store.set
  interval_cases c <;> simp

theorem store_get_set_ne (s : Store) {c c' : Nat} (l : List Nat) (h : c ≠ c') :
    (s.set c l).get c' = s.get c' := by
  unfold Store.get Store.set
  split_ifs <;> simp_all

theorem store_eq_of_get {s s' : Store} (h0 : s.get 0 = s'.get 0) (h1 : s.get 1 = s'.get 1)
    (h2 : s.get 2 = s'.get 2) : s = s' := by
  unfold Store.get at h0 h1 h2
  simp only [if_pos rfl, if_neg (by omega : (1 : Nat) ≠ 0), if_neg (by omega : (2 : Nat) ≠ 0),
    if_pos rfl, if_neg (by omega : ¬(2 : Nat) = 1)] at h0 h1 h2
  cases s
  cases s'
  simp_all

theorem chainSeg_zero (v off : Nat) : chainSeg v off 0 = [] := rfl

theorem chainSeg_succ (v off m : Nat) :
    chainSeg v off (m + 1) = chainSeg v off m ++ [v + (m + 1) * off] := by
  unfold chainSeg
  rw [List.range_succ, List.map_append]
  simp

theorem mem_chainSeg {v off m x : Nat} :
    x ∈ chainSeg v off m ↔ ∃ i, 1 ≤ i ∧ i ≤ m ∧ x = v + i * off := by
  unfold chainSeg
  rw [List.mem_map]
  constructor
  · rintro ⟨i, hi, rfl⟩
    exact ⟨i + 1, by omega, by simpa using List.mem_range.mp hi, rfl⟩
  · rintro ⟨i, h1, h2, rfl⟩
    refine ⟨i - 1, List.mem_range.mpr (by omega), ?_⟩
    have hi : i - 1 + 1 = i := by omega
    rw [hi]

theorem chainSeg_gt {v off m : Nat} (hoff : 1 ≤ off) :
    ∀ x ∈ chainSeg v off m, v < x := by
  intro x hx
  obtain ⟨i, h1, h2, rfl⟩ := mem_chainSeg.mp hx
  have : 1 * off ≤ i * off := Nat.mul_le_mul_right off h1
  omega

theorem chainSeg_nodup (v off m : Nat) (hoff : 1 ≤ off) : (chainSeg v off m).Nodup := by
  unfold chainSeg
  refine List.Nodup.map ?_ (List.nodup_range m)
  intro i j hij
  dsimp only at hij
  have h2 : (i + 1) * off = (j + 1) * off := by omega
  have h3 := Nat.eq_of_mul_eq_mul_right (by omega : 0 < off) h2
  omega

theorem not_mem_chainSeg_self {v off m : Nat} (hoff : 1 ≤ off) : v ∉ chainSeg v off m :=
  fun h => absurd (chainSeg_gt hoff v h) (lt_irrefl v)

theorem sorted_take_lt {L : List Nat} (hs : List.Sorted (· < ·) L) {k : Nat}
    (hk : k < L.length) : ∀ x ∈ L.take k, x < L.get ⟨k, hk⟩ := by
  intro x hx
  obtain ⟨i, hi, hgx⟩ := List.getElem_of_mem hx
  have hik : i < k := by
    have := hi
    rw [List.length_take] at this
    omega
  have hgl : (L.take k)[i] = L[i] := List.getElem_take L
  rw [hgl] at hgx
  rw [← hgx]
  have h4 := List.pairwise_iff_get.mp hs ⟨i, by omega⟩ ⟨k, hk⟩ (by simpa using hik)
  simpa using h4

theorem sorted_take_lt_all {L : List Nat} (hs : List.Sorted (· < ·) L) {k : Nat}
    (hk : k < L.length) {x : Nat} (hx : x ∈ L.take k) : x < L[k] :=
  sorted_take_lt hs hk x hx

theorem store_get_zero (s : Store) : s.get 0 = s.scratch := rfl

theorem checkChain_steps (bd : List Nat) (off colour : Nat) (hoff : 1 ≤ off)
    (hcol : colour = 1 ∨ colour = 2)
    (L₀ C : List Nat) (v : Nat)
    (hagree : ∀ x, bd.getD x BORDER = colour ↔ x ∈ L₀)
    (hLnd : L₀.Nodup)
    (hvL : v ∈ L₀) (hvC : v ∉ C)
    (hclo : ∀ q ∈ C, q - off ∈ C ∨ q - off < v) :
    ∀ (n : Nat), 1 ≤ n → ∀ (j : Nat), n + j = 5 → ∀ (s : Store),
      s.scratch = C ++ chainSeg v off j →
      s.get colour = L₀.filter (fun x => decide (x ∉ C ++ chainSeg v off j)) →
      (∀ i, 1 ≤ i → i ≤ j → bd.getD (v + i * off) BORDER = colour) →
      (∀ x ∈ chainSeg v off j, x ∉ C) →
      ∃ (win : Bool) (m : Nat) (s₁ : Store),
        checkChain bd off s (v + j * off) colour n = some (win, s₁) ∧
        j ≤ m ∧ m ≤ 4 ∧
        s₁.scratch = C ++ chainSeg v off m ∧
        s₁.get colour = L₀.filter (fun x => decide (x ∉ C ++ chainSeg v off m)) ∧
        (∀ c', c' ≠ 0 → c' ≠ colour → s₁.get c' = s.get c') ∧
        (∀ i, 1 ≤ i → i ≤ m → bd.getD (v + i * off) BORDER = colour) ∧
        (∀ x ∈ chainSeg v off m, x ∉ C) ∧
        (win = true → m = 4) ∧
        (win = false → m ≤ 3 ∧ bd.getD (v + (m + 1) * off) BORDER ≠ colour) := by
  have hc0 : colour ≠ 0 := by rcases hcol with h | h <;> omega
  have hcle : colour ≤ 2 := by rcases hcol with h | h <;> omega
  intro n
  induction n using Nat.strong_induction_on with
  | _ n ih =>
    intro hn j hnj s hscr hlist hcols hsegC
    rcases n with _ | n1
    · omega
    rcases n1 with _ | n'
    · -- base: budget 1, the chain succeeds; here j = 4
      have hj : j = 4 := by omega
      subst hj
      exact ⟨true, 4, s, rfl, le_refl 4, le_refl 4, hscr, hlist, fun c' _ _ => rfl,
        hcols, hsegC, fun _ => rfl, by simp⟩
    · -- step: budget n' + 2, j ≤ 3
      have hj : j ≤ 3 := by omega
      have harr : v + (j + 1) * off = v + j * off + off := by
        rw [Nat.succ_mul, ← Nat.add_assoc]
      by_cases hbd : bd.getD (v + j * off + off) BORDER = colour
      · have hbd2 : bd.getD (v + (j + 1) * off) BORDER = colour := by rw [harr]; exact hbd
        have htL : v + (j + 1) * off ∈ L₀ := (hagree _).mp hbd2
        have htnotseg : v + (j + 1) * off ∉ chainSeg v off j := by
          intro hmem
          obtain ⟨i, h1, h2, heq⟩ := mem_chainSeg.mp hmem
          have h3 : (j + 1) * off = i * off := by omega
          have h4 := Nat.eq_of_mul_eq_mul_right (show 0 < off by omega) h3
          omega
        have htnotC : v + (j + 1) * off ∉ C := by
          intro hmem
          have htoff : v + (j + 1) * off - off = v + j * off := by
            rw [harr]
            omega
          rcases hclo _ hmem with h | h
          · rw [htoff] at h
            rcases Nat.eq_zero_or_pos j with hj0 | hjpos
            · subst hj0
              simp only [Nat.zero_mul, Nat.add_zero] at h
              exact hvC h
            · exact hsegC (v + j * off) (mem_chainSeg.mpr ⟨j, hjpos, le_refl j, rfl⟩) h
          · rw [htoff] at h
            omega
        have htmem : v + j * off + off ∈ s.get colour := by
          rw [← harr, hlist, List.mem_filter]
          refine ⟨htL, ?_⟩
          simp only [decide_eq_true_eq, List.mem_append]
          rintro (h | h)
          · exact htnotC h
          · exact htnotseg h
        have hscr2 : s.scratch ++ [v + j * off + off] = C ++ chainSeg v off (j + 1) := by
          rw [hscr, chainSeg_succ, ← harr, List.append_assoc]
        have hlist2 : (s.get colour).erase (v + j * off + off) =
            L₀.filter (fun x => decide (x ∉ C ++ chainSeg v off (j + 1))) := by
          rw [← harr, hlist]
          have hnd : (L₀.filter (fun x => decide (x ∉ C ++ chainSeg v off j))).Nodup :=
            hLnd.filter _
          rw [List.Nodup.erase_eq_filter hnd, List.filter_filter]
          apply List.filter_congr
          intro x _
          rw [chainSeg_succ]
          by_cases hxt : x = v + (j + 1) * off
          · subst hxt
            simp
          · simp [hxt, List.mem_append]
        have hstep : checkChain bd off s (v + j * off) colour (n' + 2) =
            checkChain bd off
              ((s.set 0 (s.scratch ++ [v + j * off + off])).set colour
                ((s.get colour).erase (v + j * off + off)))
              (v + j * off + off) colour (n' + 1) := by
          simp only [checkChain]
          rw [if_pos hbd, if_pos htmem]
        set s2 := (s.set 0 (s.scratch ++ [v + j * off + off])).set colour
          ((s.get colour).erase (v + j * off + off)) with hs2
        have hscr3 : s2.scratch = C ++ chainSeg v off (j + 1) := by
          rw [← store_get_zero, hs2, store_get_set_ne _ _ hc0,
            store_get_set_self _ _ _ (by omega), hscr2]
        have hlist3 : s2.get colour =
            L₀.filter (fun x => decide (x ∉ C ++ chainSeg v off (j + 1))) := by
          rw [hs2, store_get_set_self _ _ _ hcle, hlist2]
        have hcols3 : ∀ i, 1 ≤ i → i ≤ j + 1 → bd.getD (v + i * off) BORDER = colour := by
          intro i h1 h2
          rcases Nat.lt_or_ge i (j + 1) with h | h
          · exact hcols i h1 (by omega)
          · have hi : i = j + 1 := by omega
            rw [hi]
            exact hbd2
        have hsegC3 : ∀ x ∈ chainSeg v off (j + 1), x ∉ C := by
          intro x hx
          rw [chainSeg_succ, List.mem_append, List.mem_singleton] at hx
          rcases hx with h | h
          · exact hsegC x h
          · rw [h]
            exact htnotC
        obtain ⟨win, m, s₁, hrec, hjm, hm4, hr1, hr2, hr3, hr4, hr5, hr6, hr7⟩ :=
          ih (n' + 1) (by omega) (by omega) (j + 1) (by omega) s2 hscr3 hlist3 hcols3 hsegC3
        rw [harr] at hrec
        refine ⟨win, m, s₁, by rw [hstep]; exact hrec, by omega, hm4, hr1, hr2, ?_, hr4,
          hr5, hr6, hr7⟩
        intro c' hc'0 hc'c
        rw [hr3 c' hc'0 hc'c, hs2, store_get_set_ne _ _ (fun h => hc'c h.symm),
          store_get_set_ne _ _ (fun h => hc'0 h.symm)]
      · refine ⟨false, j, s, ?_, le_refl j, by omega, hscr, hlist, fun c' _ _ => rfl,
          hcols, hsegC, by simp, fun _ => ⟨hj, by rw [harr]; exact hbd⟩⟩
        simp only [checkChain]
        rw [if_neg hbd]

theorem passLoop_spec (bd : List Nat) (off colour : Nat) (hoff : 1 ≤ off)
    (hcol : colour = 1 ∨ colour = 2)
    (L₀ : List Nat)
    (hagree : ∀ x, bd.getD x BORDER = colour ↔ x ∈ L₀)
    (hLsort : List.Sorted (· < ·) L₀) :
    ∀ (fuel : Nat), ∀ (k : Nat) (s : Store),
      1 ≤ fuel →
      (s.get colour).length + 1 ≤ fuel + k →
      s.get colour = L₀.filter (fun x => decide (x ∉ s.scratch)) →
      (∀ q ∈ s.scratch, q ∈ L₀) →
      s.scratch.Nodup →
      (∀ q ∈ s.scratch, ¬run5 bd off colour q) →
      (∀ q ∈ s.scratch, q - off ∈ s.scratch ∨
        (q - off ∈ s.get colour ∧ q - off ∉ (s.get colour).drop k)) →
      (∀ x ∈ (s.get colour).take k, ¬run5 bd off colour x) →
      ∃ (w : Bool) (s₁ : Store),
        passLoop bd off colour fuel k s = some (w, s₁) ∧
        s₁.get colour = L₀.filter (fun x => decide (x ∉ s₁.scratch)) ∧
        (∀ q ∈ s₁.scratch, q ∈ L₀) ∧
        s₁.scratch.Nodup ∧
        (∀ c', c' ≠ 0 → c' ≠ colour → s₁.get c' = s.get c') ∧
        (w = true → ∃ x ∈ L₀, run5 bd off colour x) ∧
        (w = false → ∀ x ∈ L₀, ¬run5 bd off colour x) := by
  have hLnd : L₀.Nodup := hLsort.imp (fun h => Nat.ne_of_lt h)
  have hc0 : colour ≠ 0 := by rcases hcol with h | h <;> omega
  intro fuel
  induction fuel with
  | zero =>
    intro k s hf1
    omega
  | succ fuel ih =>
    intro k s hf1 hfb hlist hscrL hscrnd hscr5 hclo htake
    cases hk : (s.get colour).get? k with
    | none =>
      have hlen : (s.get colour).length ≤ k := by
        rcases Nat.lt_or_ge k (s.get colour).length with h | h
        · rw [List.get?_eq_getElem?, List.getElem?_eq_getElem h] at hk
          simp at hk
        · exact h
      refine ⟨false, s, ?_, hlist, hscrL, hscrnd, fun c' _ _ => rfl, by simp, ?_⟩
      · simp only [passLoop, hk]
      · intro _ x hx
        by_cases hxs : x ∈ s.scratch
        · exact hscr5 x hxs
        · have hxl : x ∈ (s.get colour).take k := by
            rw [List.take_of_length_le hlen, hlist, List.mem_filter]
            exact ⟨hx, by simp [hxs]⟩
          exact htake x hxl
    | some v =>
      have hkl : k < (s.get colour).length := by
        by_contra h
        rw [List.get?_eq_getElem?, List.getElem?_eq_none (by omega)] at hk
        simp at hk
      have hv : (s.get colour)[k] = v := by
        rw [List.get?_eq_getElem?, List.getElem?_eq_getElem hkl] at hk
        simpa using hk
      have hvmem : v ∈ s.get colour := hv ▸ List.getElem_mem hkl
      have hvmem2 := hvmem
      rw [hlist, List.mem_filter] at hvmem2
      have hvL : v ∈ L₀ := hvmem2.1
      have hvC : v ∉ s.scratch := by simpa using hvmem2.2
      have hsorted : List.Sorted (· < ·) (s.get colour) := by
        rw [hlist]
        exact hLsort.filter _
      have hcloV : ∀ q ∈ s.scratch, q - off ∈ s.scratch ∨ q - off < v := by
        intro q hq
        rcases hclo q hq with h | ⟨h1, h2⟩
        · exact Or.inl h
        · right
          have h3 : q - off ∈ (s.get colour).take k := by
            have h4 := h1
            conv at h4 => rw [← List.take_append_drop k (s.get colour)]
            rcases List.mem_append.mp h4 with h5 | h5
            · exact h5
            · exact absurd h5 h2
          rw [← hv]
          exact sorted_take_lt_all hsorted hkl h3
      obtain ⟨win, m, s₁, hchain, hjm, hm4, hcscr, hclist, hcoth, hccols, hcsegC, hcwin,
        hcfail⟩ :=
        checkChain_steps bd off colour hoff hcol L₀ s.scratch v hagree hLnd hvL hvC hcloV
          5 (by omega) 0 (by omega) s (by simp [chainSeg_zero])
          (by simpa [chainSeg_zero] using hlist)
          (fun i h1 h2 => by omega)
          (by simp [chainSeg_zero])
      rw [show v + 0 * off = v by simp] at hchain
      have hredux : passLoop bd off colour (fuel + 1) k s =
          if win then some (true, s₁) else passLoop bd off colour fuel (k + 1) s₁ := by
        simp only [passLoop, hk, hchain]
      have hseg0 : chainSeg v off 0 = [] := chainSeg_zero v off
      have hsegL : ∀ x ∈ chainSeg v off m, x ∈ L₀ := by
        intro x hx
        obtain ⟨i, h1, h2, rfl⟩ := mem_chainSeg.mp hx
        exact (hagree _).mp (hccols i h1 h2)
      have hlist1 : s₁.get colour = L₀.filter (fun x => decide (x ∉ s₁.scratch)) := by
        rw [hcscr]
        exact hclist
      have hscrL1 : ∀ q ∈ s₁.scratch, q ∈ L₀ := by
        intro q hq
        rw [hcscr, List.mem_append] at hq
        rcases hq with h | h
        · exact hscrL q h
        · exact hsegL q h
      have hscrnd1 : s₁.scratch.Nodup := by
        rw [hcscr, List.nodup_append]
        exact ⟨hscrnd, chainSeg_nodup v off m hoff, fun a ha ha2 => hcsegC a ha2 ha⟩
      cases win with
      | true =>
        refine ⟨true, s₁, by rw [hredux]; simp, hlist1, hscrL1, hscrnd1, hcoth, ?_, by simp⟩
        intro _
        refine ⟨v, hvL, ?_⟩
        intro kk hkk
        rcases Nat.eq_zero_or_pos kk with h | h
        · subst h
          simp only [Nat.zero_mul, Nat.add_zero]
          exact (hagree v).mpr hvL
        · have hm4w : m = 4 := hcwin rfl
          exact hccols kk h (by omega)
      | false =>
        obtain ⟨hm3, hfailbd⟩ := hcfail rfl
        have hlist₁f : s₁.get colour =
            (s.get colour).filter (fun x => decide (x ∉ chainSeg v off m)) := by
          rw [hclist, hlist, List.filter_filter]
          apply List.filter_congr
          intro x _
          by_cases h1 : x ∈ s.scratch <;> by_cases h2 : x ∈ chainSeg v off m <;>
            simp [h1, h2, List.mem_append]
        have hlen₁ : (s₁.get colour).length ≤ (s.get colour).length := by
          rw [hlist₁f]
          exact List.length_filter_le _ _
        have htakelen : ((s.get colour).take (k + 1)).length = k + 1 := by
          rw [List.length_take]
          omega
        have htake1 : (s.get colour).take (k + 1) = (s.get colour).take k ++ [v] := by
          rw [List.take_succ, List.getElem?_eq_getElem hkl, hv]
          rfl
        have hdecomp : s₁.get colour = (s.get colour).take (k + 1) ++
            ((s.get colour).drop (k + 1)).filter (fun x => decide (x ∉ chainSeg v off m)) := by
          rw [hlist₁f]
          conv_lhs => rw [← List.take_append_drop (k + 1) (s.get colour)]
          rw [List.filter_append]
          congr 1
          rw [List.filter_eq_self]
          intro a ha
          have hav : a ≤ v := by
            rw [htake1] at ha
            rcases List.mem_append.mp ha with h | h
            · have := sorted_take_lt_all hsorted hkl h
              omega
            · have : a = v := by simpa using h
              omega
          simp only [decide_eq_true_eq]
          intro hseg
          exact absurd (chainSeg_gt hoff a hseg) (by omega)
        have hs₁take : (s₁.get colour).take (k + 1) = (s.get colour).take (k + 1) := by
          rw [hdecomp, List.take_left' htakelen]
        have hs₁drop : (s₁.get colour).drop (k + 1) =
            ((s.get colour).drop (k + 1)).filter (fun x => decide (x ∉ chainSeg v off m)) := by
          rw [hdecomp, List.drop_left' htakelen]
        have hs₁nd : (s₁.get colour).Nodup := by
          rw [hlist1]
          exact hLnd.filter _
        have hscr51 : ∀ q ∈ s₁.scratch, ¬run5 bd off colour q := by
          intro q hq
          rw [hcscr, List.mem_append] at hq
          rcases hq with h | h
          · exact hscr5 q h
          · obtain ⟨i, h1, h2, rfl⟩ := mem_chainSeg.mp h
            intro hrun
            have h3 := hrun (m + 1 - i) (by omega)
            have h4 : i * off + (m + 1 - i) * off = (m + 1) * off := by
              rw [← Nat.add_mul]
              congr 1
              omega
            rw [Nat.add_assoc, h4] at h3
            exact hfailbd h3
        have hclo1 : ∀ q ∈ s₁.scratch, q - off ∈ s₁.scratch ∨
            (q - off ∈ s₁.get colour ∧ q - off ∉ (s₁.get colour).drop (k + 1)) := by
          intro q hq
          rw [hcscr, List.mem_append] at hq
          rcases hq with h | h
          · rcases hclo q h with h2 | ⟨h2, h3⟩
            · left
              rw [hcscr, List.mem_append]
              exact Or.inl h2
            · right
              have h4 : q - off ∈ (s.get colour).take k := by
                have h5 := h2
                conv at h5 => rw [← List.take_append_drop k (s.get colour)]
                rcases List.mem_append.mp h5 with h6 | h6
                · exact h6
                · exact absurd h6 h3
              have h7 : q - off ∈ (s.get colour).take (k + 1) := by
                rw [htake1, List.mem_append]
                exact Or.inl h4
              constructor
              · rw [← hs₁take] at h7
                exact List.mem_of_mem_take h7
              · intro h8
                rw [hs₁drop, List.mem_filter] at h8
                have h9 : q - off ∈ (s.get colour).drop k := by
                  rw [List.drop_eq_getElem_cons hkl]
                  exact List.mem_cons_of_mem _ h8.1
                exact h3 h9
          · obtain ⟨i, h1, h2, rfl⟩ := mem_chainSeg.mp h
            rcases Nat.lt_or_ge i 2 with hi2 | hi2
            · have hi1 : i = 1 := by omega
              subst hi1
              right
              have hvoff : v + 1 * off - off = v := by omega
              rw [hvoff]
              have h7 : v ∈ (s₁.get colour).take (k + 1) := by
                rw [hs₁take, htake1, List.mem_append]
                right
                simp
              constructor
              · exact List.mem_of_mem_take h7
              · intro h8
                have h9 := hs₁nd
                conv at h9 => rw [← List.take_append_drop (k + 1) (s₁.get colour)]
                rw [List.nodup_append] at h9
                exact h9.2.2 h7 h8
            · left
              rw [hcscr, List.mem_append]
              right
              rw [mem_chainSeg]
              refine ⟨i - 1, by omega, by omega, ?_⟩
              have : (i - 1) * off + off = i * off := by
                rw [← Nat.succ_mul]
                congr 1
                omega
              omega
        have htake2 : ∀ x ∈ (s₁.get colour).take (k + 1), ¬run5 bd off colour x := by
          intro x hx
          rw [hs₁take, htake1, List.mem_append] at hx
          rcases hx with h | h
          · exact htake x h
          · have hxv : x = v := by simpa using h
            subst hxv
            intro hrun
            exact hfailbd (hrun (m + 1) (by omega))
        have hfuel1 : 1 ≤ fuel := by omega
        have hfb1 : (s₁.get colour).length + 1 ≤ fuel + (k + 1) := by omega
        obtain ⟨w, s₂, hploop, hp1, hp2, hp3, hp4, hp5, hp6⟩ :=
          ih (k + 1) s₁ hfuel1 hfb1 hlist1 hscrL1 hscrnd1 hscr51 hclo1 htake2
        refine ⟨w, s₂, ?_, hp1, hp2, hp3, ?_, hp5, hp6⟩
        · rw [hredux, if_neg (by simp)]
          exact hploop
        · intro c' h0 hcc
          rw [hp4 c' h0 hcc, hcoth c' h0 hcc]

theorem runPass_spec (bd : List Nat) (off colour : Nat) (hoff : 1 ≤ off)
    (hcol : colour = 1 ∨ colour = 2) (s₀ : Store)
    (hscr : s₀.scratch = [])
    (hsort : List.Sorted (· < ·) (s₀.get colour))
    (hagree : ∀ x, bd.getD x BORDER = colour ↔ x ∈ s₀.get colour) :
    ∃ w, runPass bd off colour s₀ = some (w, s₀) ∧
      (w = true ↔ ∃ x, run5 bd off colour x) := by
  have hLnd : (s₀.get colour).Nodup := hsort.imp (fun h => Nat.ne_of_lt h)
  have hc0 : colour ≠ 0 := by rcases hcol with h | h <;> omega
  have hcle : colour ≤ 2 := by rcases hcol with h | h <;> omega
  obtain ⟨w, s₁, hpl, h1, h2, h3, h4, h5, h6⟩ :=
    passLoop_spec bd off colour hoff hcol (s₀.get colour) hagree hsort
      ((s₀.get colour).length + 1) 0 s₀
      (by omega) (by omega)
      (by rw [hscr]; simp)
      (by rw [hscr]; simp)
      (by rw [hscr]; exact List.nodup_nil)
      (by rw [hscr]; simp)
      (by rw [hscr]; simp)
      (by simp)
  have hpermscr : s₁.scratch.Perm
      ((s₀.get colour).filter (fun x => !decide (x ∉ s₁.scratch))) := by
    apply List.perm_of_nodup_nodup_toFinset_eq h3 (hLnd.filter _)
    ext a
    simp only [List.mem_toFinset, List.mem_filter, Bool.not_eq_true', decide_eq_false_iff_not,
      not_not]
    constructor
    · intro ha
      exact ⟨h2 a ha, ha⟩
    · intro ⟨_, ha⟩
      exact ha
  have hperm : (s₁.get colour ++ s₁.scratch).Perm (s₀.get colour) := by
    rw [h1]
    exact (List.Perm.append_left _ hpermscr).trans (List.filter_append_perm _ _)
  have hsorteq : List.insertionSort (· ≤ ·) (s₁.get colour ++ s₁.scratch) = s₀.get colour := by
    have hs1 : List.Sorted (· ≤ ·)
        (List.insertionSort (· ≤ ·) (s₁.get colour ++ s₁.scratch)) :=
      List.sorted_insertionSort _ _
    have hs2 : List.Sorted (· ≤ ·) (s₀.get colour) := hsort.le_of_lt
    exact List.eq_of_perm_of_sorted ((List.perm_insertionSort _ _).trans hperm) hs1 hs2
  have hcheckout : checkout s₁ colour = s₀ := by
    have hg0 : (checkout s₁ colour).get 0 = s₀.get 0 := by
      unfold checkout
      rw [store_get_set_self _ _ _ (by omega), store_get_zero, hscr]
    have hgc : (checkout s₁ colour).get colour = s₀.get colour := by
      unfold checkout
      rw [store_get_set_ne _ _ (fun h => hc0 h.symm), store_get_set_self _ _ _ hcle, hsorteq]
    have hgother : ∀ c', c' ≠ 0 → c' ≠ colour →
        (checkout s₁ colour).get c' = s₀.get c' := by
      intro c' hn0 hnc
      unfold checkout
      rw [store_get_set_ne _ _ (fun h => hn0 h.symm),
        store_get_set_ne _ _ (fun h => hnc h.symm), h4 c' hn0 hnc]
    apply store_eq_of_get hg0
    · rcases hcol with rfl | rfl
      · exact hgc
      · exact hgother 1 (by omega) (by omega)
    · rcases hcol with rfl | rfl
      · exact hgother 2 (by omega) (by omega)
      · exact hgc
  refine ⟨w, ?_, ?_⟩
  · unfold runPass
    rw [hpl]
    simp only [Option.map_some']
    rw [hcheckout]
  · constructor
    · intro hw
      obtain ⟨x, -, hrun⟩ := h5 hw
      exact ⟨x, hrun⟩
    · rintro ⟨x, hrun⟩
      cases hww : w with
      | false =>
        exfalso
        have hx : x ∈ s₀.get colour := by
          have h0 := hrun 0 (by omega)
          simp only [Nat.zero_mul, Nat.add_zero] at h0
          exact (hagree x).mp h0
        exact h6 hww x hx hrun
      | true => rfl

theorem WF_agree (b : Board) (hWF : WellFormed b) {colour : Nat}
    (hcol : colour = BLACK ∨ colour = WHITE) :
    ∀ x, b.board.getD x BORDER = colour ↔ x ∈ b.store.get colour := by
  have hB := hWF.2.2.2.2.2.2.1
  have hW := hWF.2.2.2.2.2.2.2
  intro x
  rcases hcol with rfl | rfl
  · constructor
    · intro h
      have hxlen : x < b.board.length := by
        by_contra h2
        rw [List.getD_eq_default _ _ (by omega)] at h
        exact absurd h (by decide)
      exact hB.2 x hxlen h
    · intro h
      exact hB.1 x h
  · constructor
    · intro h
      have hxlen : x < b.board.length := by
        by_contra h2
        rw [List.getD_eq_default _ _ (by omega)] at h
        exact absurd h (by decide)
      exact hW.2 x hxlen h
    · intro h
      exact hW.1 x h

theorem WF_sorted (b : Board) (hWF : WellFormed b) {colour : Nat}
    (hcol : colour = BLACK ∨ colour = WHITE) :
    List.Sorted (· < ·) (b.store.get colour) := by
  rcases hcol with rfl | rfl
  · exact hWF.2.2.2.2.1
  · exact hWF.2.2.2.2.2.1

theorem checkWin_spec (b : Board) (colour : Nat) (hWF : WellFormed b)
    (hcol : colour = BLACK ∨ colour = WHITE) :
    ∃ w, checkWin b colour = some (w, b) ∧
      (w = true ↔ (hasRun5 b.board 1 colour ∨ hasRun5 b.board b.NS colour ∨
        hasRun5 b.board (b.NS + 1) colour ∨ hasRun5 b.board (b.NS - 1) colour)) := by
  have hsize : 2 ≤ b.size := hWF.1
  have hscr : b.store.scratch = [] := hWF.2.2.2.1
  have hcol2 : colour = 1 ∨ colour = 2 := by
    rcases hcol with rfl | rfl
    · exact Or.inl rfl
    · exact Or.inr rfl
  have hsort := WF_sorted b hWF hcol
  have hagree := WF_agree b hWF hcol
  have hNS : 1 ≤ b.NS := by unfold Board.NS; omega
  have hNSm : 1 ≤ b.NS - 1 := by unfold Board.NS; omega
  obtain ⟨w1, hrp1, hiff1⟩ :=
    runPass_spec b.board 1 colour (le_refl 1) hcol2 b.store hscr hsort hagree
  obtain ⟨w2, hrp2, hiff2⟩ :=
    runPass_spec b.board b.NS colour hNS hcol2 b.store hscr hsort hagree
  obtain ⟨w3, hrp3, hiff3⟩ :=
    runPass_spec b.board (b.NS + 1) colour (by omega) hcol2 b.store hscr hsort hagree
  obtain ⟨w4, hrp4, hiff4⟩ :=
    runPass_spec b.board (b.NS - 1) colour hNSm hcol2 b.store hscr hsort hagree
  cases w1 with
  | true =>
    refine ⟨true, ?_, ⟨fun _ => Or.inl (hiff1.mp rfl), fun _ => rfl⟩⟩
    simp only [checkWin, hrp1, if_true]
  | false =>
    cases w2 with
    | true =>
      refine ⟨true, ?_, ⟨fun _ => Or.inr (Or.inl (hiff2.mp rfl)), fun _ => rfl⟩⟩
      simp only [checkWin, hrp1, hrp2]
      rfl
    | false =>
      cases w3 with
      | true =>
        refine ⟨true, ?_, ⟨fun _ => Or.inr (Or.inr (Or.inl (hiff3.mp rfl))), fun _ => rfl⟩⟩
        simp only [checkWin, hrp1, hrp2, hrp3]
        rfl
      | false =>
        cases w4 with
        | true =>
          refine ⟨true, ?_,
            ⟨fun _ => Or.inr (Or.inr (Or.inr (hiff4.mp rfl))), fun _ => rfl⟩⟩
          simp only [checkWin, hrp1, hrp2, hrp3, hrp4]
          rfl
        | false =>
          refine ⟨false, ?_, ?_⟩
          · simp only [checkWin, hrp1, hrp2, hrp3, hrp4]
            rfl
          · constructor
            · intro h
              exact absurd h (by simp)
            · rintro (h | h | h | h)
              · exact hiff1.mpr h
              · exact hiff2.mpr h
              · exact hiff3.mpr h
              · exact hiff4.mpr h

/-- Claim C2: for every well-formed board state (color index lists agreeing
with the cells) and color in BLACK, WHITE, `checkWin(c)` succeeds, leaves
the board unchanged, and returns true iff the board contains at least five
consecutive stones of that color along one of the four scan directions
+1, +NS, +NS+1, +NS-1 — regardless of which stone of a run is scanned
first, since the quantification is over arbitrary agreeing index lists. -/
theorem C2_checkWin_iff_five_in_a_row (b : Board) (colour : Nat) (hWF : WellFormed b)
    (hcol : colour = BLACK ∨ colour = WHITE) :
    ∃ w, checkWin b colour = some (w, b) ∧
      (w = true ↔ (hasRun5 b.board 1 colour ∨ hasRun5 b.board b.NS colour ∨
        hasRun5 b.board (b.NS + 1) colour ∨ hasRun5 b.board (b.NS - 1) colour)) :=
  checkWin_spec b colour hWF hcol

/-- Witness for C2: on the size-7 board with a horizontal black run 9-13,
`checkWin(BLACK)` returns true and restores the board. -/
theorem C2_checkWin_iff_five_in_a_row_witness :
    checkWin wbWin5 BLACK = some (true, wbWin5) := by
  obtain ⟨w, heq, hiff⟩ :=
    C2_checkWin_iff_five_in_a_row wbWin5 BLACK (by decide) (Or.inl rfl)
  have hw : w = true := hiff.mpr (Or.inl ⟨9, by decide⟩)
  rw [hw] at heq
  exact heq

/-- Claim C3: on every well-formed board state, `checkWin` and `checkState`
return the board completely unchanged: the scratch list is empty again and
both color index lists hold exactly their pre-call elements in the same
sorted order, and no cell content changes. -/
theorem C3_scan_restores_state (b : Board) (hWF : WellFormed b) :
    (∀ colour, colour = BLACK ∨ colour = WHITE → ∃ w, checkWin b colour = some (w, b)) ∧
    (∃ r, checkState b = some (r, b)) := by
  obtain ⟨wW, hW, -⟩ := checkWin_spec b WHITE hWF (Or.inr rfl)
  obtain ⟨wB, hB, -⟩ := checkWin_spec b BLACK hWF (Or.inl rfl)
  constructor
  · intro colour hcol
    obtain ⟨w, h, -⟩ := checkWin_spec b colour hWF hcol
    exact ⟨w, h⟩
  · cases wW with
    | true =>
      refine ⟨(WHITE : Nat), ?_⟩
      simp only [checkState, hW]
      rfl
    | false =>
      cases wB with
      | true =>
        refine ⟨(BLACK : Nat), ?_⟩
        simp only [checkState, hW, hB]
        rfl
      | false =>
        by_cases hemp : (get_empty_points b).length = 0
        · refine ⟨PASS, ?_⟩
          simp only [checkState, hW, hB, hemp]
          rfl
        · refine ⟨-1, ?_⟩
          simp only [checkState, hW, hB, hemp]
          rfl

/-- Witness for C3 on the size-7 board with a maximal run of four. -/
theorem C3_scan_restores_state_witness :
    (∀ colour, colour = BLACK ∨ colour = WHITE →
      ∃ w, checkWin wbRun4 colour = some (w, wbRun4)) ∧
    (∃ r, checkState wbRun4 = some (r, wbRun4)) :=
  C3_scan_restores_state wbRun4 (by decide)

/-- Claim C4: for every well-formed board, valid point and color in BLACK,
WHITE, `play_move(p, c)` fails exactly when the game is already decided
(`checkWin` holds for either color) or no empty point remains or the cell
at `p` is not EMPTY; otherwise it succeeds, sets the cell to `c` and
inserts `p` into that color's index list, which stays sorted ascending
with no duplicates and contains `p` exactly once. -/
theorem C4_play_move_spec (b : Board) (p colour : Nat) (hWF : WellFormed b)
    (hcol : colour = BLACK ∨ colour = WHITE)
    (hp : p < b.board.length) :
    ∃ wW wB, checkWin b WHITE = some (wW, b) ∧ checkWin b BLACK = some (wB, b) ∧
      ((play_move b p colour).map Prod.fst = some false ↔
        (wW = true ∨ wB = true ∨ (get_empty_points b).length = 0 ∨
          b.board.getD p BORDER ≠ EMPTY)) ∧
      (¬(wW = true ∨ wB = true ∨ (get_empty_points b).length = 0 ∨
          b.board.getD p BORDER ≠ EMPTY) →
        play_move b p colour = some (true,
          { b with board := b.board.set p colour,
                   store := b.store.set colour
                     (List.insertionSort (· ≤ ·) (b.store.get colour ++ [p])) }) ∧
        List.Sorted (· < ·) (List.insertionSort (· ≤ ·) (b.store.get colour ++ [p])) ∧
        (List.insertionSort (· ≤ ·) (b.store.get colour ++ [p])).count p = 1) := by
  obtain ⟨wW, hW, -⟩ := checkWin_spec b WHITE hWF (Or.inr rfl)
  obtain ⟨wB, hB, -⟩ := checkWin_spec b BLACK hWF (Or.inl rfl)
  refine ⟨wW, wB, hW, hB, ?_, ?_⟩
  · constructor
    · intro hres
      by_contra hnot
      push_neg at hnot
      obtain ⟨h1, h2, h3, h4⟩ := hnot
      have h1f : wW = false := by
        cases wW with
        | true => exact absurd rfl h1
        | false => rfl
      have h2f : wB = false := by
        cases wB with
        | true => exact absurd rfl h2
        | false => rfl
      subst h1f
      subst h2f
      have hpm : play_move b p colour = some (true,
          { b with board := b.board.set p colour,
                   store := b.store.set colour
                     (List.insertionSort (· ≤ ·) (b.store.get colour ++ [p])) }) := by
        simp only [play_move, hW, hB, if_neg h3, if_pos hp, h4]
        rfl
      rw [hpm] at hres
      simp at hres
    · intro hcond
      rcases hcond with h | h | h | h
      · subst h
        simp only [play_move, hW, hB]
        rfl
      · subst h
        cases wW with
        | true =>
          simp only [play_move, hW, hB]
          rfl
        | false =>
          simp only [play_move, hW, hB]
          rfl
      · cases wW with
        | true =>
          simp only [play_move, hW, hB]
          rfl
        | false =>
          cases wB with
          | true =>
            simp only [play_move, hW, hB]
            rfl
          | false =>
            simp only [play_move, hW, hB, h, if_pos h]
            rfl
      · cases wW with
        | true =>
          simp only [play_move, hW, hB]
          rfl
        | false =>
          cases wB with
          | true =>
            simp only [play_move, hW, hB]
            rfl
          | false =>
            by_cases hemp : (get_empty_points b).length = 0
            · simp only [play_move, hW, hB, hemp, if_pos hemp]
              rfl
            · simp only [play_move, hW, hB, if_neg hemp, if_pos hp, if_pos h]
              rfl
  · intro hnot
    push_neg at hnot
    obtain ⟨h1, h2, h3, h4⟩ := hnot
    have h1f : wW = false := by
      cases wW with
      | true => exact absurd rfl h1
      | false => rfl
    have h2f : wB = false := by
      cases wB with
      | true => exact absurd rfl h2
      | false => rfl
    subst h1f
    subst h2f
    have hcol2 : colour = 1 ∨ colour = 2 := by
      rcases hcol with rfl | rfl
      · exact Or.inl rfl
      · exact Or.inr rfl
    have hpnot : p ∉ b.store.get colour := by
      intro hmem
      have hpc := (WF_agree b hWF hcol p).mpr hmem
      rw [h4] at hpc
      rcases hcol2 with rfl | rfl <;> simp [EMPTY] at hpc
    have hnd : (b.store.get colour ++ [p]).Nodup := by
      rw [List.nodup_append]
      refine ⟨(WF_sorted b hWF hcol).nodup, List.nodup_singleton p, ?_⟩
      intro a ha ha2
      have : a = p := by simpa using ha2
      subst this
      exact hpnot ha
    have hperm := List.perm_insertionSort (· ≤ ·) (b.store.get colour ++ [p])
    have hsortle : List.Sorted (· ≤ ·)
        (List.insertionSort (· ≤ ·) (b.store.get colour ++ [p])) :=
      List.sorted_insertionSort _ _
    have hndsort : (List.insertionSort (· ≤ ·) (b.store.get colour ++ [p])).Nodup :=
      hperm.nodup_iff.mpr hnd
    refine ⟨?_, hsortle.lt_of_le hndsort, ?_⟩
    · simp only [play_move, hW, hB, if_neg h3, if_pos hp, h4, ne_eq, not_true_eq_false]
      rfl
    · rw [hperm.count_eq, List.count_append, List.count_singleton,
        List.count_eq_zero.mpr hpnot]
      simp

/-- Witness for C4 on the size-7 board with a run of four, playing BLACK
at the empty point 13 (which would complete the run). -/
theorem C4_play_move_spec_witness :
    ∃ wW wB, checkWin wbRun4 WHITE = some (wW, wbRun4) ∧
      checkWin wbRun4 BLACK = some (wB, wbRun4) ∧
      ((play_move wbRun4 13 BLACK).map Prod.fst = some false ↔
        (wW = true ∨ wB = true ∨ (get_empty_points wbRun4).length = 0 ∨
          wbRun4.board.getD 13 BORDER ≠ EMPTY)) ∧
      (¬(wW = true ∨ wB = true ∨ (get_empty_points wbRun4).length = 0 ∨
          wbRun4.board.getD 13 BORDER ≠ EMPTY) →
        play_move wbRun4 13 BLACK = some (true,
          { wbRun4 with board := wbRun4.board.set 13 BLACK,
                        store := wbRun4.store.set BLACK
                          (List.insertionSort (· ≤ ·) (wbRun4.store.get BLACK ++ [13])) }) ∧
        List.Sorted (· < ·)
          (List.insertionSort (· ≤ ·) (wbRun4.store.get BLACK ++ [13])) ∧
        (List.insertionSort (· ≤ ·) (wbRun4.store.get BLACK ++ [13])).count 13 = 1) :=
  C4_play_move_spec wbRun4 13 BLACK (by decide) (Or.inl rfl) (by decide)

/-- Claim C5: whenever `play_move` on a well-formed board returns failure,
the board — cells and all three store lists — is exactly as before the
call: rejection and mutation are mutually exclusive. -/
theorem C5_reject_no_mutation (b : Board) (p colour : Nat) (hWF : WellFormed b) :
    ∀ r, play_move b p colour = some (false, r) → r = b := by
  obtain ⟨wW, hW, -⟩ := checkWin_spec b WHITE hWF (Or.inr rfl)
  obtain ⟨wB, hB, -⟩ := checkWin_spec b BLACK hWF (Or.inl rfl)
  intro r hr
  cases wW with
  | true =>
    have hpm : play_move b p colour = some (false, b) := by
      simp only [play_move, hW]
      rfl
    rw [hpm] at hr
    simp at hr
    exact hr.symm
  | false =>
    cases wB with
    | true =>
      have hpm : play_move b p colour = some (false, b) := by
        simp only [play_move, hW, hB]
        rfl
      rw [hpm] at hr
      simp at hr
      exact hr.symm
    | false =>
      by_cases hemp : (get_empty_points b).length = 0
      · have hpm : play_move b p colour = some (false, b) := by
          simp only [play_move, hW, hB, hemp]
          rfl
        rw [hpm] at hr
        simp at hr
        exact hr.symm
      · by_cases hplen : p < b.board.length
        · by_cases hcell : b.board.getD p BORDER = EMPTY
          · have hpm : play_move b p colour = some (true,
                { b with board := b.board.set p colour,
                         store := b.store.set colour
                           (List.insertionSort (· ≤ ·) (b.store.get colour ++ [p])) }) := by
              simp only [play_move, hW, hB, if_neg hemp, if_pos hplen, hcell]
              rfl
            rw [hpm] at hr
            simp at hr
          · have hpm : play_move b p colour = some (false, b) := by
              simp only [play_move, hW, hB, if_neg hemp, if_pos hplen, if_pos hcell]
              rfl
            rw [hpm] at hr
            simp at hr
            exact hr.symm
        · have hpm : play_move b p colour = none := by
            simp only [play_move, hW, hB, if_neg hemp, if_neg hplen]
            rfl
          rw [hpm] at hr
          simp at hr

/-- Witness for C5: on the winning board every move is rejected and the
board is returned unchanged. -/
theorem C5_reject_no_mutation_witness :
    play_move wbWin5 17 BLACK = some (false, wbWin5) := by
  have hmap : (play_move wbWin5 17 BLACK).map Prod.fst = some false := by decide
  obtain ⟨pr, hpr, hfst⟩ := Option.map_eq_some'.mp hmap
  obtain ⟨w, r⟩ := pr
  simp only at hfst
  subst hfst
  have := C5_reject_no_mutation wbWin5 17 BLACK (by decide) r hpr
  rw [this] at hpr
  exact hpr

end SGB
